import Mathlib

/-! bazel-watcher: the fsevents watcher (`internal/ibazel/fswatcher/fsevents/fsevents.go`)

A shallow embedding of `findCommonRoot`, `newEvent`, `MapEvents` and the watcher methods
`NewWatcher`, `UpdateAll`, `Events` and `Close`, together with
the Go standard-library functions they call (`strings.Trim`, `strings.Split`,
`strings.Join`, `filepath.Join`, `filepath.Clean` for Unix), and theorems about them.

A Go string is modelled by its sequence of characters.  The only bytes the code
ever inspects are the ASCII characters `/` and `.`, which never occur inside a
multi-byte UTF-8 sequence, so splitting by characters and splitting by bytes agree.
-/

namespace FSEvents

/-! ## Go standard library: `strings` -/

/-- Go `trimLeftByte(s, c)`: `for len(s) > 0 && s[0] == c { s = s[1:] }`. -/
def trimLeftByte : List Char → Char → List Char
  | [], _ => []
  | x :: xs, c => if x = c then trimLeftByte xs c else x :: xs

/-- Go `trimRightByte(s, c)`: `for len(s) > 0 && s[len(s)-1] == c { s = s[:len(s)-1] }`,
the same scan run from the right end. -/
def trimRightByte (s : List Char) (c : Char) : List Char :=
  (trimLeftByte s.reverse c).reverse

/-- Go `strings.Trim(s, cutset)` for a one-byte ASCII cutset:
`trimLeftByte(trimRightByte(s, cutset[0]), cutset[0])`. -/
def stringsTrim (s : List Char) (c : Char) : List Char :=
  trimLeftByte (trimRightByte s c) c

/-- Go `strings.Split(s, sep)` for a one-byte separator: the pieces of `s` between
consecutive occurrences of `sep`; there is always at least one piece
(`Split("", "/")` is `[""]`). -/
def stringsSplit : List Char → Char → List (List Char)
  | [], _ => [[]]
  | x :: xs, sep =>
    if x = sep then [] :: stringsSplit xs sep
    else
      match stringsSplit xs sep with
      | [] => [[x]]
      | piece :: pieces => (x :: piece) :: pieces

/-- Go `strings.Join(elems, sep)` for a one-byte separator. -/
def stringsJoin : List (List Char) → Char → List Char
  | [], _ => []
  | [e], _ => e
  | e :: e2 :: es, sep => e ++ sep :: stringsJoin (e2 :: es) sep

/-! ## Go standard library: `path/filepath` (Unix) -/

/-- The backtracking loop of `filepath.Clean` on a `..` element, started after the
first `out.w--`: `for out.w > dotdot && !os.IsPathSeparator(out.index(out.w)) { out.w-- }`.
The argument is the current `out.w`, the result the final `out.w`. -/
def cleanBacktrack (buf : List Char) (dotdot : Nat) : Nat → Nat
  | 0 => 0
  | w + 1 =>
    if dotdot < w + 1 ∧ buf.getD (w + 1) '/' ≠ '/' then cleanBacktrack buf dotdot w
    else w + 1

/-- The main loop `for r < n { switch ... }` of `filepath.Clean`.  The second list is
`path[r:]`, `buf` is the written part `out[:out.w]` of the output buffer.  Every
iteration consumes at least one byte, so a fuel of `n - r` iterations is enough. -/
def cleanLoop (rooted : Bool) : Nat → List Char → List Char → Nat → List Char
  | 0, _, buf, _ => buf
  | _ + 1, [], buf, _ => buf
  | fuel + 1, c :: rest, buf, dotdot =>
    if c = '/' then
      -- empty path element
      cleanLoop rooted fuel rest buf dotdot
    else if c = '.' ∧ (rest = [] ∨ rest.head? = some '/') then
      -- . element
      cleanLoop rooted fuel rest buf dotdot
    else if c = '.' ∧ rest.head? = some '.' ∧
        (rest.tail = [] ∨ rest.tail.head? = some '/') then
      -- .. element: remove to last separator
      if dotdot < buf.length then
        cleanLoop rooted fuel rest.tail
          (buf.take (cleanBacktrack buf dotdot (buf.length - 1))) dotdot
      else if rooted = false then
        let buf1 := if 0 < buf.length then buf ++ ['/'] else buf
        let buf2 := buf1 ++ ['.', '.']
        cleanLoop rooted fuel rest.tail buf2 buf2.length
      else
        cleanLoop rooted fuel rest.tail buf dotdot
    else
      -- real path element: add slash if needed, then copy the element
      let buf1 :=
        if (rooted = true ∧ buf.length ≠ 1) ∨ (rooted = false ∧ buf.length ≠ 0) then
          buf ++ ['/']
        else buf
      cleanLoop rooted fuel ((c :: rest).dropWhile (fun x => !decide (x = '/')))
        (buf1 ++ (c :: rest).takeWhile (fun x => !decide (x = '/'))) dotdot

/-- Go `filepath.Clean(path)` on Unix (no volume name, `FromSlash` is the identity). -/
def filepathClean (path : List Char) : List Char :=
  match path with
  | [] => ['.']
  | c :: rest =>
    let out :=
      if c = '/' then cleanLoop true rest.length rest ['/'] 1
      else cleanLoop false (c :: rest).length (c :: rest) [] 0
    if out.length = 0 then ['.'] else out

/-- Go `filepath.Join(elem...)` on Unix: leading empty elements are skipped, the rest is
joined with `/` and cleaned; if every element is empty the result is `""`. -/
def filepathJoin : List (List Char) → List Char
  | [] => []
  | e :: es =>
    if e ≠ [] then filepathClean (stringsJoin (e :: es) '/')
    else filepathJoin es

/-! ## `findCommonRoot` -/

/-- Outcome of a Go function returning `(value, error)`: a value with a nil error, an
error, or a run-time panic (index or slice bound out of range). -/
inductive GoResult (α : Type) where
  | ok (val : α)
  | err (msg : String)
  | panic
  deriving DecidableEq, Repr

/-- The segments the code works on: `strings.Split(strings.Trim(dir, "/"), "/")`. -/
def segments (dir : String) : List (List Char) :=
  stringsSplit (stringsTrim dir.data '/') '/'

/-- The inner loop of `findCommonRoot`,
`for i := 0; i < rootLength && i < len(split); i++ { if rootSplit[i] != split[i] { break }; commonLength = i + 1 }`.
The first numeric argument is `rootLength - i` (so `i < rootLength` reads "it is not
zero"), then `i` and `commonLength`.  The result is the final `commonLength`; `none` is
an index out of range. -/
def commonLengthLoop (rootSplit split : List (List Char)) : Nat → Nat → Nat → Option Nat
  | 0, _, commonLength => some commonLength
  | k + 1, i, commonLength =>
    if i < split.length then
      match rootSplit[i]?, split[i]? with
      | some a, some b =>
        if a ≠ b then some commonLength
        else commonLengthLoop rootSplit split k (i + 1) (i + 1)
      | _, _ => none
    else some commonLength

/-- The outer loop of `findCommonRoot`, `for _, dir := range names { ...; rootLength = commonLength }`,
threading `rootLength`. -/
def rootLengthLoop (rootSplit : List (List Char)) : List String → Nat → Option Nat
  | [], rootLength => some rootLength
  | dir :: dirs, rootLength =>
    match commonLengthLoop rootSplit (segments dir) rootLength 0 0 with
    | none => none
    | some commonLength => rootLengthLoop rootSplit dirs commonLength

/-- Go slice expression `s[:n]`, which panics when `n > len(s)`. -/
def sliceTo (s : List (List Char)) (n : Nat) : Option (List (List Char)) :=
  if n ≤ s.length then some (s.take n) else none

/-- The error text of `findCommonRoot`. -/
def noCommonRoot : String := "could not find common root of directories"

/-- Go `findCommonRoot(names)`. -/
def findCommonRoot (names : List String) : GoResult (List String) :=
  match names with
  | [] => .ok []
  | first :: _ =>
    let rootSplit := segments first
    match rootLengthLoop rootSplit names rootSplit.length with
    | none => .panic
    | some rootLength =>
      if rootLength = 0 then .err noCommonRoot
      else
        match sliceTo rootSplit rootLength with
        | none => .panic
        | some common => .ok [String.mk ('/' :: filepathJoin common ++ ['/'])]

/-- The path list has `Q` as a common leading segment sequence: `Q` is a prefix of the
trimmed segment sequence of every path. -/
def IsCommonPrefix (Q : List (List Char)) (names : List String) : Prop :=
  ∀ p ∈ names, Q <+: segments p

/-- A path segment that `filepath.Clean` keeps as it is: not empty, not `.` and not `..`. -/
def CleanSegment (s : List Char) : Prop :=
  s ≠ [] ∧ s ≠ ['.'] ∧ s ≠ ['.', '.']

instance (s : List Char) : Decidable (CleanSegment s) := by
  unfold CleanSegment
  infer_instance

/-- The segments written one after the other, each preceded by a `/`; for a non-empty
list, `strings.Join(s :: S, "/")` is `s` followed by `slashed S`. -/
def slashed : List (List Char) → List Char
  | [] => []
  | s :: S => '/' :: (s ++ slashed S)

/-! ## `newEvent` and `MapEvents` -/

/-- The `fsevents.EventFlags` constants (`uint32` masks of package
`github.com/fsnotify/fsevents`) that `newEvent` tests. -/
structure EventFlagConsts where
  ItemIsFile : Nat
  ItemRemoved : Nat
  ItemCreated : Nat
  ItemRenamed : Nat
  ItemModified : Nat
  ItemInodeMetaMod : Nat
  ItemChangeOwner : Nat
  ItemXattrMod : Nat

/-- The `common.Op` constants (`uint32` masks of package
`internal/ibazel/fswatcher/common`) that `newEvent` sets. -/
structure OpConsts where
  Create : Nat
  Write : Nat
  Remove : Nat
  Rename : Nat
  Chmod : Nat

/-- The values of the `kFSEventStreamEventFlagItem*` constants of macOS, which
`github.com/fsnotify/fsevents` re-exports. -/
def darwinFlags : EventFlagConsts where
  ItemIsFile := 0x10000
  ItemRemoved := 0x200
  ItemCreated := 0x100
  ItemRenamed := 0x800
  ItemModified := 0x1000
  ItemInodeMetaMod := 0x400
  ItemChangeOwner := 0x4000
  ItemXattrMod := 0x8000

/-- Modelled from the spec: the constants of package `common`, whose source is not
part of the development; the operation set is "a bit-set over Create, Remove, Rename,
Write, Chmod", one bit per operation (`Create Op = 1 << iota`, then `Write`, `Remove`,
`Rename`, `Chmod`). -/
def commonOps : OpConsts where
  Create := 1
  Write := 2
  Remove := 4
  Rename := 8
  Chmod := 16

/-- The operation masks are non-zero and pairwise disjoint, so that membership of one
operation in an operation set can be read off independently of the others. -/
def OpConsts.Independent (O : OpConsts) : Prop :=
  O.Create ≠ 0 ∧ O.Write ≠ 0 ∧ O.Remove ≠ 0 ∧ O.Rename ≠ 0 ∧ O.Chmod ≠ 0 ∧
  O.Create &&& O.Write = 0 ∧ O.Create &&& O.Remove = 0 ∧ O.Create &&& O.Rename = 0 ∧
  O.Create &&& O.Chmod = 0 ∧ O.Write &&& O.Remove = 0 ∧ O.Write &&& O.Rename = 0 ∧
  O.Write &&& O.Chmod = 0 ∧ O.Remove &&& O.Rename = 0 ∧ O.Remove &&& O.Chmod = 0 ∧
  O.Rename &&& O.Chmod = 0

instance (O : OpConsts) : Decidable O.Independent := by
  unfold OpConsts.Independent
  infer_instance

/-- Go `common.Event`. -/
structure Event where
  Name : String
  Op : Nat
  deriving DecidableEq, Repr

/-- Go `fsevents.Event`, restricted to the fields the code reads. -/
structure RawEvent where
  Path : String
  Flags : Nat
  deriving DecidableEq, Repr

/-- The test `mask&flag == flag` of `newEvent`. -/
def flagSet (mask flag : Nat) : Bool :=
  decide (mask &&& flag = flag)

/-- The operation `op` belongs to the operation set `ops`: `ops&op == op`. -/
def hasOp (ops op : Nat) : Bool :=
  decide (ops &&& op = op)

/-- Go `newEvent(name, mask)`; the statements `e.Op |= ...` are threaded through
`op0 .. op5`. -/
def newEvent (F : EventFlagConsts) (O : OpConsts) (name : String) (mask : Nat) :
    Event × Bool :=
  if mask &&& F.ItemIsFile ≠ F.ItemIsFile then
    ({ Name := "", Op := 0 }, false)
  else
    let op0 := 0
    let op1 := if mask &&& F.ItemRemoved = F.ItemRemoved then op0 ||| O.Remove else op0
    let op2 := if mask &&& F.ItemCreated = F.ItemCreated then op1 ||| O.Create else op1
    let op3 := if mask &&& F.ItemRenamed = F.ItemRenamed then op2 ||| O.Rename else op2
    let op4 :=
      if mask &&& F.ItemModified = F.ItemModified ∨
          mask &&& F.ItemInodeMetaMod = F.ItemInodeMetaMod then op3 ||| O.Write
      else op3
    let op5 :=
      if mask &&& F.ItemChangeOwner = F.ItemChangeOwner ∨
          mask &&& F.ItemXattrMod = F.ItemXattrMod then op4 ||| O.Chmod
      else op4
    ({ Name := name, Op := op5 }, true)

/-- The operation set `newEvent` computes for a plain-file event, as one union. -/
def opUnion (F : EventFlagConsts) (O : OpConsts) (mask : Nat) : Nat :=
  (if flagSet mask F.ItemRemoved then O.Remove else 0) |||
  (if flagSet mask F.ItemCreated then O.Create else 0) |||
  (if flagSet mask F.ItemRenamed then O.Rename else 0) |||
  (if flagSet mask F.ItemModified || flagSet mask F.ItemInodeMetaMod then O.Write else 0) |||
  (if flagSet mask F.ItemChangeOwner || flagSet mask F.ItemXattrMod then O.Chmod else 0)

/-- The inner loop of `MapEvents`, `for _, event := range events { ... s.evs <- evt }`;
`sent` is the sequence of events sent on `s.evs` so far. -/
def mapBatch (F : EventFlagConsts) (O : OpConsts) : List RawEvent → List Event → List Event
  | [], sent => sent
  | event :: events, sent =>
    match newEvent F O event.Path event.Flags with
    | (evt, true) => mapBatch F O events (sent ++ [evt])
    | (_, false) => mapBatch F O events sent

/-- Go `MapEvents`, `for events := range s.es.Events { ... }`, run over the batches
delivered on `s.es.Events` until that channel is closed; the result is the sequence of
events sent on `s.evs`. -/
def MapEvents (F : EventFlagConsts) (O : OpConsts) :
    List (List RawEvent) → List Event → List Event
  | [], sent => sent
  | events :: batches, sent => MapEvents F O batches (mapBatch F O events sent)

/-- The normalized event that the translation loop forwards for one raw event, if any:
the `evt` of `evt, ok := newEvent(event.Path, event.Flags)` when `ok` holds. -/
def acceptEvent (F : EventFlagConsts) (O : OpConsts) (event : RawEvent) : Option Event :=
  match newEvent F O event.Path event.Flags with
  | (evt, true) => some evt
  | (_, false) => none

/-- The path `p` with `k` more leading and `m` more trailing separators. -/
def withSeparators (k m : Nat) (p : String) : String :=
  String.mk (List.replicate k '/' ++ p.data ++ List.replicate m '/')

/-! ## The watcher: `NewWatcher`, `UpdateAll`, `Events`, `Close`

Channels are modelled by their identity, a number given by `make` in order of creation.
The native subscription of a stream is the flag `running`: `Start()` sets it and `Stop()`
clears it.  `Stop()` does not close the channel `Events` of the stream: `Close` calls
`close(w.es.Events)` right after `w.es.Stop()`, and closing a closed channel panics. -/

/-- Go `fsevents.EventStream`, restricted to the fields the code uses, together with the
state of its native subscription. -/
structure EventStream where
  Events : Nat
  Paths : List String
  Flags : Nat
  running : Bool
  deriving DecidableEq, Repr

/-- Go `realFSEventsWatcher`: the stream `w.es` points to and the output channel `w.evs`. -/
structure realFSEventsWatcher where
  es : EventStream
  evs : Nat
  deriving DecidableEq, Repr

/-- The watcher with what its methods act on besides its two fields: the streams `w.es`
pointed to earlier, the channel each spawned `MapEvents` goroutine ranges over, the
channels closed so far and the number of channels made so far. -/
structure WatcherState where
  w : realFSEventsWatcher
  released : List EventStream
  loops : List Nat
  closed : List Nat
  chans : Nat
  deriving DecidableEq, Repr

/-- Go `es.Stop()`. -/
def EventStream.Stop (es : EventStream) : EventStream :=
  { es with running := false }

/-- Go `es.Start()`. -/
def EventStream.Start (es : EventStream) : EventStream :=
  { es with running := true }

/-- Go `NewWatcher()`; `FileEvents` is the constant `fsevents.FileEvents`.  The returned
error is always nil. -/
def NewWatcher (FileEvents : Nat) : WatcherState :=
  { w := { es := { Events := 0, Paths := [], Flags := FileEvents, running := false },
           evs := 1 },
    released := [], loops := [], closed := [], chans := 2 }

/-- Go `w.Events()`: `return w.evs`. -/
def realFSEventsWatcher.Events (w : realFSEventsWatcher) : Nat :=
  w.evs

/-- The statement `w.es.Stop()` of `UpdateAll` and `Close`. -/
def stopStep (s : WatcherState) : WatcherState :=
  { s with w := { s.w with es := s.w.es.Stop } }

/-- The statements `es := &fsevents.EventStream{Events: make(...), Paths: commonRoot, Flags: w.es.Flags}`
and `w.es = es` of `UpdateAll`. -/
def assignStep (s : WatcherState) (commonRoot : List String) : WatcherState :=
  { s with
    w := { s.w with
      es := { Events := s.chans, Paths := commonRoot, Flags := s.w.es.Flags,
              running := false } },
    released := s.released ++ [s.w.es],
    chans := s.chans + 1 }

/-- The statement `go w.MapEvents()` of `UpdateAll`: the new goroutine ranges over
`w.es.Events`. -/
def spawnStep (s : WatcherState) : WatcherState :=
  { s with loops := s.loops ++ [s.w.es.Events] }

/-- The statement `es.Start()` of `UpdateAll` (`es` is `w.es` at that point). -/
def startStep (s : WatcherState) : WatcherState :=
  { s with w := { s.w with es := s.w.es.Start } }

/-- Go `w.UpdateAll(names)`: the state after the call and the returned error
(`GoResult.ok ()` is nil). -/
def UpdateAll (s : WatcherState) (names : List String) : WatcherState × GoResult Unit :=
  let s1 := stopStep s
  match findCommonRoot names with
  | GoResult.err msg => (s1, GoResult.err msg)
  | GoResult.panic => (s1, GoResult.panic)
  | GoResult.ok commonRoot =>
    (startStep (spawnStep (assignStep s1 commonRoot)), GoResult.ok ())

/-- The states `UpdateAll` goes through, one after each of its statements that changes
the state. -/
def updateAllTrace (s : WatcherState) (names : List String) : List WatcherState :=
  let s1 := stopStep s
  match findCommonRoot names with
  | GoResult.ok commonRoot =>
    [s1, assignStep s1 commonRoot, spawnStep (assignStep s1 commonRoot),
      startStep (spawnStep (assignStep s1 commonRoot))]
  | _ => [s1]

/-- Go `close(c)`, which panics (`none`) on a channel that is already closed. -/
def closeChan (closed : List Nat) (c : Nat) : Option (List Nat) :=
  if c ∈ closed then none else some (closed ++ [c])

/-- Go `w.Close()`. -/
def Close (s : WatcherState) : WatcherState × GoResult Unit :=
  let s1 := stopStep s
  match closeChan s1.closed s1.w.es.Events with
  | none => (s1, GoResult.panic)
  | some closed1 =>
    let s2 := { s1 with closed := closed1 }
    match closeChan s2.closed s2.w.evs with
    | none => (s2, GoResult.panic)
    | some closed2 => ({ s2 with closed := closed2 }, GoResult.ok ())

/-- The watcher after a sequence of `UpdateAll` calls. -/
def runUpdates (s : WatcherState) (updates : List (List String)) : WatcherState :=
  updates.foldl (fun t names => (UpdateAll t names).1) s

/-- The number of active native subscriptions: streams started and not stopped. -/
def activeCount (s : WatcherState) : Nat :=
  (s.w.es :: s.released).countP (fun es => es.running)

/-- What holds of every watcher obtained from `NewWatcher` by `UpdateAll` calls: the
stream flags are the mask given at creation, no released stream is running, every channel
in use was made earlier, and nothing has been closed. -/
def WatcherInv (FileEvents : Nat) (s : WatcherState) : Prop :=
  s.w.es.Flags = FileEvents ∧
  (∀ r ∈ s.released, r.running = false) ∧
  s.w.es.Events < s.chans ∧ s.w.evs < s.chans ∧
  (∀ r ∈ s.released, r.Events < s.chans) ∧
  (∀ c ∈ s.loops, c < s.chans) ∧
  s.closed = []

/-! ## Bit-mask helpers -/

theorem nat_or_and_right (a b c : Nat) : (a ||| b) &&& c = (a &&& c) ||| (b &&& c) := by
  rw [Nat.and_comm, Nat.and_or_distrib_left, Nat.and_comm c a, Nat.and_comm c b]

theorem nat_or_and_self (a b : Nat) : (a ||| b) &&& b = b := by
  apply Nat.eq_of_testBit_eq
  intro i
  simp only [Nat.testBit_and, Nat.testBit_or]
  cases a.testBit i <;> cases b.testBit i <;> rfl

theorem hasOp_or_self (a b : Nat) : hasOp (a ||| b) b = true := by
  simp [hasOp, nat_or_and_self]

theorem hasOp_or_left (a b x : Nat) (h : hasOp a x = true) : hasOp (a ||| b) x = true := by
  simp only [hasOp, decide_eq_true_eq] at h ⊢
  rw [nat_or_and_right, h]
  apply Nat.eq_of_testBit_eq
  intro i
  have hi : (a &&& x).testBit i = x.testBit i := by rw [h]
  simp only [Nat.testBit_and, Nat.testBit_or] at hi ⊢
  cases hx : x.testBit i <;> cases hb : b.testBit i <;> simp_all

theorem opUnion_mem (R C N W H : Nat) (r c n w h : Prop) [Decidable r] [Decidable c]
    [Decidable n] [Decidable w] [Decidable h]
    (hR : R ≠ 0) (hC : C ≠ 0) (hN : N ≠ 0) (hW : W ≠ 0) (hH : H ≠ 0)
    (hCW : C &&& W = 0) (hCR : C &&& R = 0) (hCN : C &&& N = 0) (hCH : C &&& H = 0)
    (hWR : W &&& R = 0) (hWN : W &&& N = 0) (hWH : W &&& H = 0)
    (hRN : R &&& N = 0) (hRH : R &&& H = 0) (hNH : N &&& H = 0) :
    let op := (if r then R else 0) ||| (if c then C else 0) ||| (if n then N else 0) |||
      (if w then W else 0) ||| (if h then H else 0)
    (op &&& R = R ↔ r) ∧ (op &&& C = C ↔ c) ∧ (op &&& N = N ↔ n) ∧ (op &&& W = W ↔ w) ∧
      (op &&& H = H ↔ h) := by
  have hWC : W &&& C = 0 := by rw [Nat.and_comm]; exact hCW
  have hRC : R &&& C = 0 := by rw [Nat.and_comm]; exact hCR
  have hNC : N &&& C = 0 := by rw [Nat.and_comm]; exact hCN
  have hHC : H &&& C = 0 := by rw [Nat.and_comm]; exact hCH
  have hRW : R &&& W = 0 := by rw [Nat.and_comm]; exact hWR
  have hNW : N &&& W = 0 := by rw [Nat.and_comm]; exact hWN
  have hHW : H &&& W = 0 := by rw [Nat.and_comm]; exact hWH
  have hNR : N &&& R = 0 := by rw [Nat.and_comm]; exact hRN
  have hHR : H &&& R = 0 := by rw [Nat.and_comm]; exact hRH
  have hHN : H &&& N = 0 := by rw [Nat.and_comm]; exact hNH
  have hR0 : ¬ (0 = R) := fun e => hR e.symm
  have hC0 : ¬ (0 = C) := fun e => hC e.symm
  have hN0 : ¬ (0 = N) := fun e => hN e.symm
  have hW0 : ¬ (0 = W) := fun e => hW e.symm
  have hH0 : ¬ (0 = H) := fun e => hH e.symm
  intro op
  simp only [op]
  by_cases h1 : r <;> by_cases h2 : c <;> by_cases h3 : n <;> by_cases h4 : w <;>
    by_cases h5 : h <;>
    simp [h1, h2, h3, h4, h5, nat_or_and_right, hCW, hCR, hCN, hCH, hWR, hWN, hWH,
      hRN, hRH, hNH, hWC, hRC, hNC, hHC, hRW, hNW, hHW, hNR, hHR, hHN, hR0, hC0, hN0, hW0, hH0]

/-! ## `newEvent` -/

theorem newEvent_of_file (F : EventFlagConsts) (O : OpConsts) (name : String) (mask : Nat)
    (hfile : flagSet mask F.ItemIsFile = true) :
    newEvent F O name mask = ({ Name := name, Op := opUnion F O mask }, true) := by
  simp only [flagSet, decide_eq_true_eq] at hfile
  simp only [newEvent, hfile, ne_eq, not_true_eq_false, if_false, opUnion, flagSet,
    Bool.or_eq_true, decide_eq_true_eq]
  split_ifs <;> simp

theorem newEvent_of_not_file (F : EventFlagConsts) (O : OpConsts) (name : String) (mask : Nat)
    (hfile : flagSet mask F.ItemIsFile = false) :
    newEvent F O name mask = ({ Name := "", Op := 0 }, false) := by
  simp only [flagSet, decide_eq_false_iff_not] at hfile
  simp [newEvent, hfile]

/-- C3: for every path name and every raw mask with the item-is-file flag set, `newEvent`
returns `ok = true` with an event whose `Name` is the raw path and whose `Op` is exactly
the union of `Remove` (removed flag), `Create` (created flag), `Rename` (renamed flag),
`Write` (modified or inode-metadata-modified flag) and `Chmod` (owner-changed or
xattr-modified flag); when the operation masks are independent bits, each operation
belongs to `Op` if and only if its flag condition holds. -/
theorem newEvent_file_event (F : EventFlagConsts) (O : OpConsts) (name : String) (mask : Nat)
    (hfile : flagSet mask F.ItemIsFile = true) :
    (newEvent F O name mask).2 = true ∧
    (newEvent F O name mask).1.Name = name ∧
    (newEvent F O name mask).1.Op =
      ((if flagSet mask F.ItemRemoved then O.Remove else 0) |||
       (if flagSet mask F.ItemCreated then O.Create else 0) |||
       (if flagSet mask F.ItemRenamed then O.Rename else 0) |||
       (if flagSet mask F.ItemModified || flagSet mask F.ItemInodeMetaMod
        then O.Write else 0) |||
       (if flagSet mask F.ItemChangeOwner || flagSet mask F.ItemXattrMod
        then O.Chmod else 0)) ∧
    (O.Independent →
      hasOp (newEvent F O name mask).1.Op O.Remove = flagSet mask F.ItemRemoved ∧
      hasOp (newEvent F O name mask).1.Op O.Create = flagSet mask F.ItemCreated ∧
      hasOp (newEvent F O name mask).1.Op O.Rename = flagSet mask F.ItemRenamed ∧
      hasOp (newEvent F O name mask).1.Op O.Write =
        (flagSet mask F.ItemModified || flagSet mask F.ItemInodeMetaMod) ∧
      hasOp (newEvent F O name mask).1.Op O.Chmod =
        (flagSet mask F.ItemChangeOwner || flagSet mask F.ItemXattrMod)) := by
  rw [newEvent_of_file F O name mask hfile]
  refine ⟨rfl, rfl, rfl, ?_⟩
  rintro ⟨hC, hW, hR, hN, hH, hCW, hCR, hCN, hCH, hWR, hWN, hWH, hRN, hRH, hNH⟩
  have key := opUnion_mem O.Remove O.Create O.Rename O.Write O.Chmod
    (flagSet mask F.ItemRemoved = true) (flagSet mask F.ItemCreated = true)
    (flagSet mask F.ItemRenamed = true)
    ((flagSet mask F.ItemModified || flagSet mask F.ItemInodeMetaMod) = true)
    ((flagSet mask F.ItemChangeOwner || flagSet mask F.ItemXattrMod) = true)
    hR hC hN hW hH hCW hCR hCN hCH hWR hWN hWH hRN hRH hNH
  obtain ⟨k1, k2, k3, k4, k5⟩ := key
  simp only [opUnion, hasOp]
  refine ⟨?_, ?_, ?_, ?_, ?_⟩
  · rw [Bool.eq_iff_iff, decide_eq_true_eq]; exact k1
  · rw [Bool.eq_iff_iff, decide_eq_true_eq]; exact k2
  · rw [Bool.eq_iff_iff, decide_eq_true_eq]; exact k3
  · rw [Bool.eq_iff_iff, decide_eq_true_eq]; exact k4
  · rw [Bool.eq_iff_iff, decide_eq_true_eq]; exact k5

/-- Witness for C3: a removed-and-modified plain file, with the macOS flag values and the
operation masks of package `common`. -/
theorem newEvent_file_event_witness :
    flagSet 0x11200 darwinFlags.ItemIsFile = true ∧
    commonOps.Independent ∧
    (newEvent darwinFlags commonOps "/w/BUILD" 0x11200).2 = true ∧
    (newEvent darwinFlags commonOps "/w/BUILD" 0x11200).1 = { Name := "/w/BUILD", Op := 6 } ∧
    hasOp (newEvent darwinFlags commonOps "/w/BUILD" 0x11200).1.Op commonOps.Remove = true ∧
    hasOp (newEvent darwinFlags commonOps "/w/BUILD" 0x11200).1.Op commonOps.Create = false :=
  have hI : commonOps.Independent := by decide
  have h := newEvent_file_event darwinFlags commonOps "/w/BUILD" 0x11200 (by decide)
  ⟨by decide, hI, h.1, by decide, by rw [(h.2.2.2 hI).1]; decide,
    by rw [(h.2.2.2 hI).2.1]; decide⟩

/-- C4: a raw event whose mask does not have the item-is-file flag set produces no
normalized event (`ok = false`), whatever other flags are set. -/
theorem newEvent_not_file (F : EventFlagConsts) (O : OpConsts) (name : String) (mask : Nat)
    (hdir : flagSet mask F.ItemIsFile = false) :
    (newEvent F O name mask).2 = false := by
  rw [newEvent_of_not_file F O name mask hdir]

/-- Witness for C4: a directory (`ItemIsDir = 0x20000`) with the created, removed,
renamed and modified flags set. -/
theorem newEvent_not_file_witness :
    flagSet 0x21b00 darwinFlags.ItemIsFile = false ∧
    flagSet 0x21b00 darwinFlags.ItemRemoved = true ∧
    flagSet 0x21b00 darwinFlags.ItemCreated = true ∧
    (newEvent darwinFlags commonOps "/w/dir" 0x21b00).2 = false :=
  ⟨by decide, by decide, by decide,
    newEvent_not_file darwinFlags commonOps "/w/dir" 0x21b00 (by decide)⟩

/-- C5 fails as stated: a plain-file event none of whose operation flags is set (mask
`ItemIsFile` alone) has an empty operation set, yet `newEvent` accepts it and the
translation loop forwards it. -/
theorem newEvent_empty_ops_forwarded :
    flagSet 0x10000 darwinFlags.ItemIsFile = true ∧
    opUnion darwinFlags commonOps 0x10000 = 0 ∧
    newEvent darwinFlags commonOps "/w/f" 0x10000 = ({ Name := "/w/f", Op := 0 }, true) ∧
    MapEvents darwinFlags commonOps [[{ Path := "/w/f", Flags := 0x10000 }]] [] =
      [{ Name := "/w/f", Op := 0 }] := by
  decide

/-- C5 (amended): a raw event is dropped exactly when it is not a plain-file change:
`newEvent` answers `ok = false` if and only if the item-is-file flag is not set, and the
translation loop run on that single event forwards nothing when the flag is not set and
forwards the event of `newEvent` (whatever its operation set) when it is. -/
theorem mapEvents_drops_exactly_non_file (F : EventFlagConsts) (O : OpConsts) (ev : RawEvent)
    (sent : List Event) :
    (newEvent F O ev.Path ev.Flags).2 = flagSet ev.Flags F.ItemIsFile ∧
    MapEvents F O [[ev]] sent =
      (if flagSet ev.Flags F.ItemIsFile then sent ++ [(newEvent F O ev.Path ev.Flags).1]
       else sent) := by
  cases hfile : flagSet ev.Flags F.ItemIsFile
  · rw [newEvent_of_not_file F O ev.Path ev.Flags hfile]
    simp [MapEvents, mapBatch, newEvent_of_not_file F O ev.Path ev.Flags hfile]
  · rw [newEvent_of_file F O ev.Path ev.Flags hfile]
    simp [MapEvents, mapBatch, newEvent_of_file F O ev.Path ev.Flags hfile]

/-- C10 fails as stated: a directory event with both the removed and the renamed flag set
produces no normalized event. -/
theorem newEvent_removed_renamed_dir_dropped :
    flagSet 0x20a00 darwinFlags.ItemRemoved = true ∧
    flagSet 0x20a00 darwinFlags.ItemRenamed = true ∧
    (newEvent darwinFlags commonOps "/w/dir" 0x20a00).2 = false ∧
    MapEvents darwinFlags commonOps [[{ Path := "/w/dir", Flags := 0x20a00 }]] [] = [] := by
  decide

/-- C10 (amended): a raw event of a plain file (item-is-file flag set) with both the
removed and the renamed flag set produces one normalized event, whose operation set
contains both `Remove` and `Rename`. -/
theorem newEvent_removed_renamed (F : EventFlagConsts) (O : OpConsts) (name : String)
    (mask : Nat) (hfile : flagSet mask F.ItemIsFile = true)
    (hrem : flagSet mask F.ItemRemoved = true) (hren : flagSet mask F.ItemRenamed = true) :
    (newEvent F O name mask).2 = true ∧
    hasOp (newEvent F O name mask).1.Op O.Remove = true ∧
    hasOp (newEvent F O name mask).1.Op O.Rename = true ∧
    ∀ sent, mapBatch F O [{ Path := name, Flags := mask }] sent =
      sent ++ [(newEvent F O name mask).1] := by
  have hne := newEvent_of_file F O name mask hfile
  refine ⟨by rw [hne], ?_, ?_, ?_⟩
  · rw [hne]
    simp only [opUnion, hrem, if_true]
    exact hasOp_or_left _ _ _ (hasOp_or_left _ _ _ (hasOp_or_left _ _ _
      (hasOp_or_left _ _ _ (by simp [hasOp]))))
  · rw [hne]
    simp only [opUnion, hren, if_true]
    exact hasOp_or_left _ _ _ (hasOp_or_left _ _ _ (hasOp_or_self _ _))
  · intro sent
    simp [mapBatch, hne]

/-- Witness for C10 (amended): a plain file that was renamed and removed. -/
theorem newEvent_removed_renamed_witness :
    flagSet 0x10a00 darwinFlags.ItemIsFile = true ∧
    (newEvent darwinFlags commonOps "/w/f" 0x10a00).2 = true ∧
    hasOp (newEvent darwinFlags commonOps "/w/f" 0x10a00).1.Op commonOps.Remove = true ∧
    hasOp (newEvent darwinFlags commonOps "/w/f" 0x10a00).1.Op commonOps.Rename = true :=
  have h := newEvent_removed_renamed darwinFlags commonOps "/w/f" 0x10a00
    (by decide) (by decide) (by decide)
  ⟨by decide, h.1, h.2.1, h.2.2.1⟩

/-! ## `findCommonRoot`: the loops compute the longest common prefix of the segment lists -/

theorem commonLengthLoop_spec (rootSplit split : List (List Char)) :
    ∀ (k i : Nat), i + k ≤ rootSplit.length → rootSplit.take i = split.take i →
      ∃ n, commonLengthLoop rootSplit split k i i = some n ∧ n ≤ i + k ∧
        rootSplit.take n = split.take n ∧
        ∀ Q : List (List Char), Q <+: rootSplit.take (i + k) → Q <+: split → Q.length ≤ n := by
  intro k
  induction k with
  | zero =>
    intro i _ htake
    refine ⟨i, by simp [commonLengthLoop], by omega, htake, ?_⟩
    intro Q hQ _
    have := hQ.length_le
    simp only [List.length_take] at this
    omega
  | succ k ih =>
    intro i hlen htake
    by_cases hi : i < split.length
    · have hir : i < rootSplit.length := by omega
      by_cases hab : rootSplit[i] = split[i]
      · have hnext : rootSplit.take (i + 1) = split.take (i + 1) := by
          rw [List.take_succ, List.take_succ, htake, List.getElem?_eq_getElem hir,
            List.getElem?_eq_getElem hi, hab]
        obtain ⟨n, hn, hle, ht, hmax⟩ := ih (i + 1) (by omega) hnext
        refine ⟨n, ?_, by omega, ht, ?_⟩
        · rw [commonLengthLoop, if_pos hi]
          simp only [List.getElem?_eq_getElem hir, List.getElem?_eq_getElem hi]
          simp [hab, hn]
        · intro Q hQ hQs
          have e : i + (k + 1) = i + 1 + k := by omega
          rw [e] at hQ
          exact hmax Q hQ hQs
      · refine ⟨i, ?_, by omega, htake, ?_⟩
        · rw [commonLengthLoop, if_pos hi]
          simp only [List.getElem?_eq_getElem hir, List.getElem?_eq_getElem hi]
          simp [hab]
        · intro Q hQ hQs
          by_contra hcon
          have hlt : i < Q.length := by omega
          have hQr : Q <+: rootSplit := hQ.trans (List.take_prefix _ _)
          have h1 := hQr.getElem hlt
          have h2 := hQs.getElem hlt
          exact hab (h1.symm.trans h2)
    · refine ⟨i, by simp [commonLengthLoop, hi], by omega, htake, ?_⟩
      intro Q _ hQs
      have := hQs.length_le
      omega

theorem rootLengthLoop_spec (rootSplit : List (List Char)) :
    ∀ (dirs : List String) (rootLength : Nat), rootLength ≤ rootSplit.length →
      ∃ n, rootLengthLoop rootSplit dirs rootLength = some n ∧ n ≤ rootLength ∧
        IsCommonPrefix (rootSplit.take n) dirs ∧
        ∀ Q : List (List Char), Q <+: rootSplit.take rootLength → IsCommonPrefix Q dirs →
          Q.length ≤ n := by
  intro dirs
  induction dirs with
  | nil =>
    intro rl _
    refine ⟨rl, rfl, le_refl _, ?_, ?_⟩
    · intro p hp
      cases hp
    · intro Q hQ _
      have := hQ.length_le
      simp only [List.length_take] at this
      omega
  | cons dir dirs ih =>
    intro rl hrl
    obtain ⟨m, hm, hmle, hmt, hmmax⟩ :=
      commonLengthLoop_spec rootSplit (segments dir) rl 0 (by omega) (by simp)
    obtain ⟨n, hn, hnle, hnpre, hnmax⟩ := ih m (by omega)
    refine ⟨n, ?_, by omega, ?_, ?_⟩
    · rw [rootLengthLoop, hm]
      exact hn
    · intro p hp
      rcases List.mem_cons.mp hp with rfl | hp
      · have h1 : rootSplit.take n <+: rootSplit.take m := List.take_prefix_take_left _ hnle
        rw [hmt] at h1
        exact h1.trans (List.take_prefix _ _)
      · exact hnpre p hp
    · intro Q hQ hQall
      have hQd : Q <+: segments dir := hQall dir (List.mem_cons_self _ _)
      have hQm : Q.length ≤ m := hmmax Q (by simpa using hQ) hQd
      have hQr : Q <+: rootSplit := hQ.trans (List.take_prefix _ _)
      have hQtm : Q <+: rootSplit.take m := List.prefix_take_iff.mpr ⟨hQr, hQm⟩
      exact hnmax Q hQtm (fun p hp => hQall p (List.mem_cons_of_mem _ hp))

theorem stringsSplit_ne_nil (s : List Char) (sep : Char) : stringsSplit s sep ≠ [] := by
  induction s with
  | nil => simp [stringsSplit]
  | cons x xs ih =>
    rw [stringsSplit]
    split_ifs
    · simp
    · cases h : stringsSplit xs sep <;> simp

theorem segments_ne_nil (p : String) : segments p ≠ [] :=
  stringsSplit_ne_nil _ _

/-- What `findCommonRoot` computes on a non-empty list: there is a longest common segment
prefix `P` of all paths; the call fails when `P` is empty and otherwise returns the single
root `"/" + filepath.Join(P...) + "/"`. -/
theorem findCommonRoot_cons (first : String) (rest : List String) :
    ∃ P : List (List Char), P <+: segments first ∧ IsCommonPrefix P (first :: rest) ∧
      (∀ Q : List (List Char), IsCommonPrefix Q (first :: rest) → Q.length ≤ P.length) ∧
      findCommonRoot (first :: rest) =
        if P.length = 0 then GoResult.err noCommonRoot
        else GoResult.ok [String.mk ('/' :: filepathJoin P ++ ['/'])] := by
  obtain ⟨n, hn, hnle, hpre, hmax⟩ :=
    rootLengthLoop_spec (segments first) (first :: rest) (segments first).length (le_refl _)
  have hlen : ((segments first).take n).length = n := by
    rw [List.length_take]; omega
  refine ⟨(segments first).take n, List.take_prefix _ _, hpre, ?_, ?_⟩
  · intro Q hQ
    rw [hlen]
    apply hmax Q _ hQ
    rw [List.take_length]
    exact hQ first (List.mem_cons_self _ _)
  · rw [hlen]
    simp only [findCommonRoot, hn, sliceTo, if_pos hnle]

theorem commonPrefix_unique (names : List String) (hne : names ≠ [])
    (P1 P2 : List (List Char)) (h1 : IsCommonPrefix P1 names) (h2 : IsCommonPrefix P2 names)
    (m1 : ∀ Q : List (List Char), IsCommonPrefix Q names → Q.length ≤ P1.length)
    (m2 : ∀ Q : List (List Char), IsCommonPrefix Q names → Q.length ≤ P2.length) :
    P1 = P2 := by
  obtain ⟨p, hp⟩ := List.exists_mem_of_ne_nil names hne
  have hl : P1.length = P2.length := le_antisymm (m2 P1 h1) (m1 P2 h2)
  have hpre : P1 <+: P2 := List.prefix_of_prefix_length_le (h1 p hp) (h2 p hp) (le_of_eq hl)
  exact hpre.eq_of_length hl

theorem isCommonPrefix_congr (Q : List (List Char)) (l1 l2 : List String)
    (h : ∀ p, p ∈ l1 ↔ p ∈ l2) : IsCommonPrefix Q l1 ↔ IsCommonPrefix Q l2 :=
  ⟨fun hq p hp => hq p ((h p).mpr hp), fun hq p hp => hq p ((h p).mp hp)⟩

/-- C2: on a non-empty list `findCommonRoot` fails with the "no common root" error if and
only if some path's first trimmed segment differs from the first path's first segment; it
succeeds with one root otherwise; in particular it fails whenever the first two entries
differ in their first segment. -/
theorem findCommonRoot_error_iff (first : String) (rest : List String) :
    (findCommonRoot (first :: rest) = GoResult.err noCommonRoot ↔
      ∃ p ∈ first :: rest, (segments p).head? ≠ (segments first).head?) ∧
    ((∀ p ∈ first :: rest, (segments p).head? = (segments first).head?) →
      ∃ root, findCommonRoot (first :: rest) = GoResult.ok [root]) ∧
    (∀ (second : String) (tail : List String), rest = second :: tail →
      (segments second).head? ≠ (segments first).head? →
      findCommonRoot (first :: rest) = GoResult.err noCommonRoot) := by
  obtain ⟨P, hPf, hP, hmax, hres⟩ := findCommonRoot_cons first rest
  have key : P.length = 0 ↔ ∃ p ∈ first :: rest, (segments p).head? ≠ (segments first).head? := by
    constructor
    · intro h0
      by_contra hcon
      push_neg at hcon
      obtain ⟨x, xs, hx⟩ := List.exists_cons_of_ne_nil (segments_ne_nil first)
      have hc : IsCommonPrefix [x] (first :: rest) := by
        intro p hp
        have := hcon p hp
        rw [hx] at this
        obtain ⟨y, ys, hy⟩ := List.exists_cons_of_ne_nil (segments_ne_nil p)
        rw [hy] at this ⊢
        simp only [List.head?_cons, Option.some.injEq] at this
        rw [this]
        exact ⟨ys, rfl⟩
      have := hmax [x] hc
      simp only [List.length_singleton] at this
      omega
    · rintro ⟨p, hp, hne⟩
      by_contra hlen
      obtain ⟨x, xs, hx⟩ := List.exists_cons_of_ne_nil (fun h : P = [] => hlen (by rw [h]; rfl))
      obtain ⟨t1, ht1⟩ := hP p hp
      obtain ⟨t2, ht2⟩ := hPf
      apply hne
      rw [← ht1, ← ht2, hx]
      rfl
  have herr : findCommonRoot (first :: rest) = GoResult.err noCommonRoot ↔ P.length = 0 := by
    rw [hres]
    by_cases h0 : P.length = 0 <;> simp [h0]
  refine ⟨herr.trans key, ?_, ?_⟩
  · intro hall
    have hnz : ¬ P.length = 0 := fun h0 => by
      obtain ⟨p, hp, hne⟩ := key.mp h0
      exact hne (hall p hp)
    exact ⟨_, by rw [hres, if_neg hnz]⟩
  · intro second tail hrest hne
    exact (herr.trans key).mpr ⟨second, by rw [hrest]; simp, hne⟩

/-- Witness for C2: `/a/b` and `/c/d` diverge in their first segment. -/
theorem findCommonRoot_error_iff_witness :
    findCommonRoot ["/a/b", "/c/d"] = GoResult.err noCommonRoot ∧
    ∃ root, findCommonRoot ["/a/b", "/a/d"] = GoResult.ok [root] :=
  ⟨(findCommonRoot_error_iff "/a/b" ["/c/d"]).2.2 "/c/d" [] rfl (by decide),
   (findCommonRoot_error_iff "/a/b" ["/a/d"]).2.1 (by decide)⟩

/-- C7: the outcome of `findCommonRoot` (the root, or the error) depends only on the set of
paths: two lists with the same members, in particular a permutation of a list or a list
that repeats paths already present, give the same result. -/
theorem findCommonRoot_set_invariant (l1 l2 : List String) (h : ∀ p, p ∈ l1 ↔ p ∈ l2) :
    findCommonRoot l1 = findCommonRoot l2 := by
  cases l1 with
  | nil =>
    cases l2 with
    | nil => rfl
    | cons b bs => exact absurd ((h b).mpr (List.mem_cons_self _ _)) (List.not_mem_nil _)
  | cons a as =>
    cases l2 with
    | nil => exact absurd ((h a).mp (List.mem_cons_self _ _)) (List.not_mem_nil _)
    | cons b bs =>
      obtain ⟨P1, -, hP1, hmax1, hres1⟩ := findCommonRoot_cons a as
      obtain ⟨P2, -, hP2, hmax2, hres2⟩ := findCommonRoot_cons b bs
      have hP2' : IsCommonPrefix P2 (a :: as) := (isCommonPrefix_congr P2 _ _ h).mpr hP2
      have hmax2' : ∀ Q : List (List Char), IsCommonPrefix Q (a :: as) → Q.length ≤ P2.length :=
        fun Q hQ => hmax2 Q ((isCommonPrefix_congr Q _ _ h).mp hQ)
      have hP : P1 = P2 :=
        commonPrefix_unique (a :: as) (List.cons_ne_nil _ _) P1 P2 hP1 hP2' hmax1 hmax2'
      rw [hres1, hres2, hP]

/-- Witness for C7: reordering and repeating paths. -/
theorem findCommonRoot_set_invariant_witness :
    findCommonRoot ["/a/b/c", "/a/b/d", "/a/x"] =
      findCommonRoot ["/a/x", "/a/b/d", "/a/x", "/a/b/c", "/a/b/d"] :=
  findCommonRoot_set_invariant _ _ (by intro p; simp only [List.mem_cons, List.mem_singleton, List.not_mem_nil, or_false]; tauto)

/-- C9: for the empty path list `findCommonRoot` returns an empty list of roots and no
error. -/
theorem findCommonRoot_nil : findCommonRoot [] = GoResult.ok [] := rfl

/-! ## `strings.Split`, `strings.Join`, `strings.Trim` and `filepath.Join` on clean segments -/

theorem stringsJoin_cons (s : List Char) (S : List (List Char)) (sep : Char) :
    stringsJoin (s :: S) sep = s ++ (match S with
      | [] => []
      | t :: T => sep :: stringsJoin (t :: T) sep) := by
  cases S <;> simp [stringsJoin]

theorem stringsJoin_eq_slashed (s : List Char) (S : List (List Char)) :
    stringsJoin (s :: S) '/' = s ++ slashed S := by
  induction S generalizing s with
  | nil => simp [stringsJoin, slashed]
  | cons t T ih => rw [stringsJoin, ih t, slashed]

theorem stringsSplit_not_mem (l : List Char) (sep : Char) :
    ∀ s ∈ stringsSplit l sep, sep ∉ s := by
  induction l with
  | nil => simp [stringsSplit]
  | cons x xs ih =>
    intro s hs
    rw [stringsSplit] at hs
    split_ifs at hs with hx
    · rcases List.mem_cons.mp hs with rfl | hs
      · simp
      · exact ih s hs
    · cases hsp : stringsSplit xs sep with
      | nil => exact absurd hsp (stringsSplit_ne_nil _ _)
      | cons piece pieces =>
        rw [hsp] at hs ih
        simp only [List.mem_cons] at hs
        rcases hs with rfl | hs
        · intro hmem
          rcases List.mem_cons.mp hmem with h | h
          · exact hx h.symm
          · exact ih piece (List.mem_cons_self _ _) h
        · exact ih s (List.mem_cons_of_mem _ hs)

theorem segments_not_mem (p : String) : ∀ s ∈ segments p, '/' ∉ s :=
  stringsSplit_not_mem _ _

theorem stringsSplit_of_not_mem (s : List Char) (sep : Char) (h : sep ∉ s) :
    stringsSplit s sep = [s] := by
  induction s with
  | nil => rfl
  | cons x xs ih =>
    have hx : ¬ x = sep := fun e => h (by rw [e]; exact List.mem_cons_self _ _)
    have hxs : sep ∉ xs := fun e => h (List.mem_cons_of_mem _ e)
    rw [stringsSplit, if_neg hx, ih hxs]

theorem stringsSplit_append_sep (s t : List Char) (sep : Char) (h : sep ∉ s) :
    stringsSplit (s ++ sep :: t) sep = s :: stringsSplit t sep := by
  induction s with
  | nil => simp [stringsSplit]
  | cons x xs ih =>
    have hx : ¬ x = sep := fun e => h (by rw [e]; exact List.mem_cons_self _ _)
    have hxs : sep ∉ xs := fun e => h (List.mem_cons_of_mem _ e)
    rw [List.cons_append, stringsSplit, if_neg hx, ih hxs]

theorem stringsSplit_slashed (s : List Char) (S : List (List Char))
    (hs : '/' ∉ s) (hS : ∀ t ∈ S, '/' ∉ t) :
    stringsSplit (s ++ slashed S) '/' = s :: S := by
  induction S generalizing s with
  | nil => simpa [slashed] using stringsSplit_of_not_mem s '/' hs
  | cons t T ih =>
    rw [slashed, stringsSplit_append_sep s _ '/' hs,
      ih t (hS t (List.mem_cons_self _ _)) (fun u hu => hS u (List.mem_cons_of_mem _ hu))]

theorem stringsJoin_stringsSplit (l : List Char) (sep : Char) :
    stringsJoin (stringsSplit l sep) sep = l := by
  induction l with
  | nil => rfl
  | cons x xs ih =>
    rw [stringsSplit]
    split_ifs with hx
    · obtain ⟨y, ys, hy⟩ := List.exists_cons_of_ne_nil (stringsSplit_ne_nil xs sep)
      rw [hy] at ih ⊢
      rw [stringsJoin, ih, hx]
      rfl
    · obtain ⟨y, ys, hy⟩ := List.exists_cons_of_ne_nil (stringsSplit_ne_nil xs sep)
      rw [hy] at ih ⊢
      simp only
      rw [stringsJoin_cons] at ih ⊢
      rw [List.cons_append, ih]

theorem trimLeftByte_of_head (l : List Char) (c : Char) (h : l.head? ≠ some c) :
    trimLeftByte l c = l := by
  cases l with
  | nil => rfl
  | cons x xs =>
    have hx : ¬ x = c := fun e => h (by rw [e]; rfl)
    rw [trimLeftByte, if_neg hx]

theorem trimRightByte_concat_ne (A : List Char) (b c : Char) (hb : b ≠ c) :
    trimRightByte (A ++ [b]) c = A ++ [b] := by
  rw [trimRightByte, List.reverse_append, List.reverse_singleton, List.singleton_append,
    trimLeftByte, if_neg hb]
  simp

theorem trimRightByte_concat_sep (A : List Char) (c : Char) :
    trimRightByte (A ++ [c]) c = trimRightByte A c := by
  rw [trimRightByte, List.reverse_append, List.reverse_singleton, List.singleton_append,
    trimLeftByte, if_pos rfl, trimRightByte]

theorem stringsTrim_wrapped (J A : List Char) (a b c : Char) (hJ1 : J.head? = some a)
    (hJ2 : J = A ++ [b]) (ha : a ≠ c) (hb : b ≠ c) :
    stringsTrim (c :: J ++ [c]) c = J := by
  have h1 : trimRightByte (c :: J ++ [c]) c = c :: J := by
    rw [trimRightByte_concat_sep, hJ2, ← List.cons_append, trimRightByte_concat_ne _ b c hb]
  rw [stringsTrim, h1, trimLeftByte, if_pos rfl]
  apply trimLeftByte_of_head
  rw [hJ1]
  intro e
  exact ha (Option.some.inj e)

theorem slashed_concat (S : List (List Char)) (hS : ∀ t ∈ S, t ≠ [] ∧ '/' ∉ t) :
    ∀ s : List Char, s ≠ [] → '/' ∉ s →
      ∃ (A : List Char) (b : Char), s ++ slashed S = A ++ [b] ∧ b ≠ '/' := by
  induction S with
  | nil =>
    intro s hs hn
    refine ⟨s.dropLast, s.getLast hs, ?_, ?_⟩
    · rw [slashed, List.append_nil, List.dropLast_append_getLast]
    · intro e
      exact hn (e ▸ List.getLast_mem hs)
  | cons t T ih =>
    intro s _ _
    obtain ⟨ht1, ht2⟩ := hS t (List.mem_cons_self _ _)
    obtain ⟨A, b, hA, hb⟩ := ih (fun u hu => hS u (List.mem_cons_of_mem _ hu)) t ht1 ht2
    refine ⟨s ++ '/' :: A, b, ?_, hb⟩
    rw [slashed, hA]
    simp

theorem takeWhile_segment (s rest : List Char) (hn : '/' ∉ s)
    (hrest : rest = [] ∨ rest.head? = some '/') :
    (s ++ rest).takeWhile (fun x => !decide (x = '/')) = s ∧
    (s ++ rest).dropWhile (fun x => !decide (x = '/')) = rest := by
  induction s with
  | nil =>
    rcases hrest with rfl | h
    · simp
    · cases rest with
      | nil => simp
      | cons r rs =>
        simp only [List.head?_cons, Option.some.injEq] at h
        subst h
        simp
  | cons x xs ih =>
    have hx : ¬ x = '/' := fun e => hn (by rw [e]; exact List.mem_cons_self _ _)
    have hxs : '/' ∉ xs := fun e => hn (List.mem_cons_of_mem _ e)
    obtain ⟨h1, h2⟩ := ih hxs
    constructor
    · rw [List.cons_append, List.takeWhile_cons]
      simp [hx, h1]
    · rw [List.cons_append, List.dropWhile_cons]
      simp [hx, h2]

/-- The fuel of `cleanLoop` never runs out: any two amounts of fuel that are at least the
number of bytes left to read give the same result. -/
theorem cleanLoop_fuel (rooted : Bool) :
    ∀ (f1 f2 : Nat) (rest buf : List Char) (dd : Nat), rest.length ≤ f1 → rest.length ≤ f2 →
      cleanLoop rooted f1 rest buf dd = cleanLoop rooted f2 rest buf dd := by
  intro f1
  induction f1 with
  | zero =>
    intro f2 rest buf dd h1 _
    have hnil : rest = [] := List.length_eq_zero.mp (Nat.le_zero.mp h1)
    subst hnil
    cases f2 <;> simp [cleanLoop]
  | succ f1 ih =>
    intro f2 rest buf dd h1 h2
    cases rest with
    | nil => cases f2 <;> simp [cleanLoop]
    | cons c rest =>
      simp only [List.length_cons] at h1 h2
      obtain ⟨g, rfl⟩ : ∃ g, f2 = g + 1 := ⟨f2 - 1, by omega⟩
      have htail : rest.tail.length ≤ rest.length := by simp
      rw [cleanLoop, cleanLoop]
      by_cases hc : c = '/'
      · rw [if_pos hc, if_pos hc]
        exact ih g rest buf dd (by omega) (by omega)
      · have hdrop :
            ((c :: rest).dropWhile (fun x => !decide (x = '/'))).length ≤ rest.length := by
          rw [List.dropWhile_cons]
          simp only [hc, decide_False, Bool.not_false, if_true]
          exact (List.dropWhile_sublist _).length_le
        rw [if_neg hc, if_neg hc]
        rw [ih g rest buf dd (by omega) (by omega)]
        rw [ih g rest.tail _ dd (by omega) (by omega)]
        rw [ih g rest.tail _ _ (by omega) (by omega)]
        rw [ih g rest.tail buf dd (by omega) (by omega)]
        rw [ih g _ _ dd (by omega) (by omega)]

/-- One iteration of the loop of `filepath.Clean` on a segment that is not empty, `.` or
`..`: the segment is copied to the buffer, after a `/` unless the buffer is empty. -/
theorem cleanLoop_segment (s rest buf : List Char) (dd fuel : Nat)
    (hs : CleanSegment s) (hn : '/' ∉ s) (hrest : rest = [] ∨ rest.head? = some '/') :
    cleanLoop false (fuel + 1) (s ++ rest) buf dd =
      cleanLoop false fuel rest ((if buf.length ≠ 0 then buf ++ ['/'] else buf) ++ s) dd := by
  obtain ⟨hne, hdot, hdotdot⟩ := hs
  obtain ⟨c, s1, rfl⟩ := List.exists_cons_of_ne_nil hne
  have hc : ¬ c = '/' := fun e => hn (by rw [e]; exact List.mem_cons_self _ _)
  have hs1 : '/' ∉ s1 := fun e => hn (List.mem_cons_of_mem _ e)
  have c2 : ¬ (c = '.' ∧ (s1 ++ rest = [] ∨ (s1 ++ rest).head? = some '/')) := by
    rintro ⟨rfl, h⟩
    cases s1 with
    | nil => exact hdot rfl
    | cons d s2 =>
      rcases h with h | h
      · simp at h
      · simp only [List.cons_append, List.head?_cons, Option.some.injEq] at h
        exact hs1 (by rw [h]; exact List.mem_cons_self _ _)
  have c3 : ¬ (c = '.' ∧ (s1 ++ rest).head? = some '.' ∧
      ((s1 ++ rest).tail = [] ∨ (s1 ++ rest).tail.head? = some '/')) := by
    rintro ⟨rfl, h1, h2⟩
    cases s1 with
    | nil =>
      rcases hrest with rfl | hr
      · simp at h1
      · rw [List.nil_append, hr] at h1
        simp at h1
    | cons d s2 =>
      simp only [List.cons_append, List.head?_cons, Option.some.injEq] at h1
      subst h1
      cases s2 with
      | nil => exact hdotdot rfl
      | cons e s3 =>
        simp only [List.cons_append, List.tail_cons, List.head?_cons, Option.some.injEq] at h2
        rcases h2 with h2 | h2
        · simp at h2
        · exact hs1 (by rw [h2]; simp)
  obtain ⟨ht, hd⟩ := takeWhile_segment (c :: s1) rest hn hrest
  rw [List.cons_append, cleanLoop, if_neg hc, if_neg c2, if_neg c3]
  simp only [← List.cons_append, ht, hd]
  simp

theorem slashed_head (S : List (List Char)) : slashed S = [] ∨ (slashed S).head? = some '/' := by
  cases S with
  | nil => exact Or.inl rfl
  | cons s S => exact Or.inr rfl

theorem cleanLoop_slashed (S : List (List Char)) :
    ∀ (buf : List Char) (dd fuel : Nat), (∀ t ∈ S, CleanSegment t ∧ '/' ∉ t) → buf ≠ [] →
      (slashed S).length ≤ fuel → cleanLoop false fuel (slashed S) buf dd = buf ++ slashed S := by
  induction S with
  | nil =>
    intro buf dd fuel _ _ _
    cases fuel <;> simp [slashed, cleanLoop]
  | cons t T ih =>
    intro buf dd fuel hS hbuf hfuel
    obtain ⟨htc, htn⟩ := hS t (List.mem_cons_self _ _)
    have htlen : 0 < t.length := List.length_pos.mpr htc.1
    simp only [slashed, List.length_cons, List.length_append] at hfuel
    obtain ⟨f, rfl⟩ : ∃ f, fuel = f + 2 := ⟨fuel - 2, by omega⟩
    have hbl : buf.length ≠ 0 := fun h => hbuf (List.length_eq_zero.mp h)
    rw [slashed, cleanLoop, if_pos rfl, cleanLoop_segment t (slashed T) buf dd f htc htn
      (slashed_head T), if_pos hbl,
      ih _ dd f (fun u hu => hS u (List.mem_cons_of_mem _ hu)) (by simp) (by omega)]
    simp

/-- On segments none of which is empty, `.` or `..` (and none containing `/`),
`filepath.Join` is plain joining with `/`. -/
theorem filepathJoin_clean (s : List Char) (S : List (List Char))
    (hS : ∀ t ∈ s :: S, CleanSegment t ∧ '/' ∉ t) :
    filepathJoin (s :: S) = stringsJoin (s :: S) '/' := by
  obtain ⟨hsc, hsn⟩ := hS s (List.mem_cons_self _ _)
  have hne : s ≠ [] := hsc.1
  rw [filepathJoin, if_pos hne, stringsJoin_eq_slashed]
  obtain ⟨c, s1, rfl⟩ := List.exists_cons_of_ne_nil hne
  have hc : ¬ c = '/' := fun e => hsn (by rw [e]; exact List.mem_cons_self _ _)
  have hloop : cleanLoop false ((c :: s1) ++ slashed S).length ((c :: s1) ++ slashed S) [] 0 =
      (c :: s1) ++ slashed S := by
    rw [List.length_append, List.length_cons, Nat.add_right_comm,
      cleanLoop_segment (c :: s1) (slashed S) [] 0 _ hsc hsn (slashed_head S)]
    simp only [List.length_nil, ne_eq, not_true_eq_false, if_false, List.nil_append]
    exact cleanLoop_slashed S (c :: s1) 0 _ (fun u hu => hS u (List.mem_cons_of_mem _ hu))
      (by simp) (by omega)
  rw [List.cons_append] at hloop ⊢
  rw [filepathClean]
  simp only [if_neg hc, hloop]
  simp

/-! ## `findCommonRoot`: the returned root -/

theorem root_of_clean_segments (P : List (List Char)) (hne : P ≠ [])
    (hP : ∀ t ∈ P, CleanSegment t ∧ '/' ∉ t) :
    filepathJoin P = stringsJoin P '/' ∧
    segments (String.mk ('/' :: filepathJoin P ++ ['/'])) = P := by
  obtain ⟨s, S, rfl⟩ := List.exists_cons_of_ne_nil hne
  have hj := filepathJoin_clean s S hP
  refine ⟨hj, ?_⟩
  obtain ⟨hsc, hsn⟩ := hP s (List.mem_cons_self _ _)
  obtain ⟨a, s1, rfl⟩ := List.exists_cons_of_ne_nil hsc.1
  have ha : a ≠ '/' := fun e => hsn (by rw [e]; exact List.mem_cons_self _ _)
  obtain ⟨A, b, hA, hb⟩ := slashed_concat S
    (fun u hu => ⟨(hP u (List.mem_cons_of_mem _ hu)).1.1, (hP u (List.mem_cons_of_mem _ hu)).2⟩)
    (a :: s1) hsc.1 hsn
  rw [hj, stringsJoin_eq_slashed, segments]
  simp only
  rw [stringsTrim_wrapped ((a :: s1) ++ slashed S) A a b '/' rfl hA ha hb]
  exact stringsSplit_slashed (a :: s1) S hsn (fun u hu => (hP u (List.mem_cons_of_mem _ hu)).2)

/-- C1 fails as stated: the common segments of `/a/./b/c` and `/a/./b/d` are `a`, `.`, `b`;
`filepath.Join` cleans them to `a/b`, and the segments `a`, `b` of the returned root
`/a/b/` are not a prefix of the segments of the first input path. -/
theorem findCommonRoot_root_not_common :
    findCommonRoot ["/a/./b/c", "/a/./b/d"] = GoResult.ok ["/a/b/"] ∧
    segments "/a/b/" = ["a".data, "b".data] ∧
    segments "/a/./b/c" = ["a".data, ".".data, "b".data, "c".data] ∧
    ¬ (segments "/a/b/" <+: segments "/a/./b/c") := by
  decide

/-- C1 (amended): for every non-empty list of paths whose common leading segments are all
different from the empty segment, `.` and `..`, and on which `findCommonRoot` succeeds,
there is exactly one returned root, its trimmed segment sequence is a prefix of the
segment sequence of every input path, and no longer segment sequence is a prefix of all
input paths. -/
theorem findCommonRoot_root_longest_common (first : String) (rest roots : List String)
    (hclean : ∀ Q : List (List Char), IsCommonPrefix Q (first :: rest) →
      ∀ s ∈ Q, CleanSegment s)
    (hok : findCommonRoot (first :: rest) = GoResult.ok roots) :
    ∃ root, roots = [root] ∧ IsCommonPrefix (segments root) (first :: rest) ∧
      ∀ Q : List (List Char), IsCommonPrefix Q (first :: rest) →
        Q.length ≤ (segments root).length := by
  obtain ⟨P, hPf, hP, hmax, hres⟩ := findCommonRoot_cons first rest
  rw [hres] at hok
  by_cases h0 : P.length = 0
  · rw [if_pos h0] at hok
    cases hok
  · rw [if_neg h0] at hok
    have hne : P ≠ [] := fun e => h0 (by rw [e]; rfl)
    have hPc : ∀ t ∈ P, CleanSegment t ∧ '/' ∉ t := fun t ht =>
      ⟨hclean P hP t ht, segments_not_mem first t (hPf.subset ht)⟩
    obtain ⟨-, hseg⟩ := root_of_clean_segments P hne hPc
    refine ⟨_, (GoResult.ok.inj hok).symm, ?_, ?_⟩
    · rw [hseg]; exact hP
    · rw [hseg]; exact hmax

/-- Witness for C1 (amended). -/
theorem findCommonRoot_root_longest_common_witness :
    findCommonRoot ["/a/b/c", "/a/b/d", "/a/x"] = GoResult.ok ["/a/"] ∧
    ∃ root, ["/a/"] = [root] ∧
      IsCommonPrefix (segments root) ["/a/b/c", "/a/b/d", "/a/x"] ∧
      ∀ Q : List (List Char), IsCommonPrefix Q ["/a/b/c", "/a/b/d", "/a/x"] →
        Q.length ≤ (segments root).length :=
  ⟨by decide,
   findCommonRoot_root_longest_common "/a/b/c" ["/a/b/d", "/a/x"] ["/a/"]
    (fun Q hQ s hs => by
      have hmem : s ∈ segments "/a/b/c" := (hQ "/a/b/c" (List.mem_cons_self _ _)).subset hs
      have hall : ∀ t ∈ segments "/a/b/c", CleanSegment t := by decide
      exact hall s hmem)
    (by decide)⟩

/-- C6 fails as stated: the three leading segments `a`, the empty segment and `b` are common
to `/a//b/c` and `/a//b/d`; rejoined with `/` between a leading and a trailing `/` they
give `/a//b/`, but the returned root is `/a/b/`. -/
theorem findCommonRoot_root_not_plain_join :
    findCommonRoot ["/a//b/c", "/a//b/d"] = GoResult.ok ["/a/b/"] ∧
    segments "/a//b/c" = ["a".data, [], "b".data, "c".data] ∧
    segments "/a//b/d" = ["a".data, [], "b".data, "d".data] ∧
    String.mk ('/' :: stringsJoin ((segments "/a//b/c").take 3) '/' ++ ['/']) = "/a//b/" := by
  decide

/-- C6 (amended): when `findCommonRoot` succeeds on a non-empty list, the result is a
one-element list whose element is `/`, then `filepath.Join` of the first `n` trimmed
segments of the first path, then `/`, where `n > 0` is the number of leading segments
common to all paths; when none of these segments is empty, `.` or `..`, that is `/`, the
segments rejoined with `/`, and `/`. -/
theorem findCommonRoot_ok_root (first : String) (rest roots : List String)
    (hok : findCommonRoot (first :: rest) = GoResult.ok roots) :
    ∃ n, 0 < n ∧ n ≤ (segments first).length ∧
      IsCommonPrefix ((segments first).take n) (first :: rest) ∧
      (∀ Q : List (List Char), IsCommonPrefix Q (first :: rest) → Q.length ≤ n) ∧
      roots = [String.mk ('/' :: filepathJoin ((segments first).take n) ++ ['/'])] ∧
      ((∀ s ∈ (segments first).take n, CleanSegment s) →
        roots = [String.mk ('/' :: stringsJoin ((segments first).take n) '/' ++ ['/'])]) := by
  obtain ⟨P, hPf, hP, hmax, hres⟩ := findCommonRoot_cons first rest
  rw [hres] at hok
  by_cases h0 : P.length = 0
  · rw [if_pos h0] at hok
    cases hok
  · rw [if_neg h0] at hok
    have hne : P ≠ [] := fun e => h0 (by rw [e]; rfl)
    have hPt : P = (segments first).take P.length := List.prefix_iff_eq_take.mp hPf
    have hroots := (GoResult.ok.inj hok).symm
    refine ⟨P.length, by omega, hPf.length_le, ?_, hmax, ?_, ?_⟩
    · rw [← hPt]; exact hP
    · rw [← hPt]; exact hroots
    · rw [← hPt]
      intro hc
      have hPc : ∀ t ∈ P, CleanSegment t ∧ '/' ∉ t := fun t ht =>
        ⟨hc t ht, segments_not_mem first t (hPf.subset ht)⟩
      rw [hroots, (root_of_clean_segments P hne hPc).1]

/-- Witness for C6 (amended): the example `/a/b/c`, `/a/b/d`, `/a/x` with root `/a/`. -/
theorem findCommonRoot_ok_root_witness :
    findCommonRoot ["/a/b/c", "/a/b/d", "/a/x"] = GoResult.ok ["/a/"] ∧
    ∃ n, 0 < n ∧ n ≤ (segments "/a/b/c").length ∧
      IsCommonPrefix ((segments "/a/b/c").take n) ["/a/b/c", "/a/b/d", "/a/x"] ∧
      (∀ Q : List (List Char), IsCommonPrefix Q ["/a/b/c", "/a/b/d", "/a/x"] →
        Q.length ≤ n) ∧
      ["/a/"] = [String.mk ('/' :: filepathJoin ((segments "/a/b/c").take n) ++ ['/'])] ∧
      ((∀ s ∈ (segments "/a/b/c").take n, CleanSegment s) →
        ["/a/"] = [String.mk ('/' :: stringsJoin ((segments "/a/b/c").take n) '/' ++ ['/'])]) :=
  ⟨by decide, findCommonRoot_ok_root "/a/b/c" ["/a/b/d", "/a/x"] ["/a/"] (by decide)⟩

/-- C8 fails as stated: for the single path `/a//b` the returned root is `/a/b/`, not the
path itself between slashes, `/a//b/`. -/
theorem findCommonRoot_single_not_itself :
    findCommonRoot ["/a//b"] = GoResult.ok ["/a/b/"] ∧
    String.mk ('/' :: stringsTrim "/a//b".data '/' ++ ['/']) = "/a//b/" ∧
    findCommonRoot ["/a//b"] ≠
      GoResult.ok [String.mk ('/' :: stringsTrim "/a//b".data '/' ++ ['/'])] := by
  decide

/-- C8 (amended): for every single input path `p`, `findCommonRoot([p])` succeeds and
returns `/`, then `filepath.Join` of the trimmed segments of `p`, then `/`; when the
trimmed path is empty or none of its segments is empty, `.` or `..`, this is the path
itself: `/`, then `p` with leading and trailing `/` trimmed, then `/`. -/
theorem findCommonRoot_single (p : String) :
    findCommonRoot [p] =
      GoResult.ok [String.mk ('/' :: filepathJoin (segments p) ++ ['/'])] ∧
    ((stringsTrim p.data '/' = [] ∨ ∀ s ∈ segments p, CleanSegment s) →
      findCommonRoot [p] = GoResult.ok [String.mk ('/' :: stringsTrim p.data '/' ++ ['/'])]) := by
  obtain ⟨P, hPf, hP, hmax, hres⟩ := findCommonRoot_cons p []
  have hself : IsCommonPrefix (segments p) [p] := by
    intro q hq
    rw [List.mem_singleton.mp hq]
  have hPeq : P = segments p := hPf.eq_of_length_le (hmax _ hself)
  have h0 : ¬ P.length = 0 := by
    rw [hPeq]
    intro h
    exact segments_ne_nil p (List.length_eq_zero.mp h)
  rw [if_neg h0, hPeq] at hres
  refine ⟨hres, ?_⟩
  intro h
  rw [hres]
  rcases h with h | h
  · have : segments p = [[]] := by rw [segments, h]; rfl
    rw [this, h]
    rfl
  · obtain ⟨s, S, hs⟩ := List.exists_cons_of_ne_nil (segments_ne_nil p)
    have hc : ∀ t ∈ s :: S, CleanSegment t ∧ '/' ∉ t := fun t ht =>
      ⟨h t (by rw [hs]; exact ht), segments_not_mem p t (by rw [hs]; exact ht)⟩
    have hj : filepathJoin (segments p) = stringsTrim p.data '/' := by
      rw [hs, filepathJoin_clean s S hc, ← hs, segments, stringsJoin_stringsSplit]
    rw [hj]

/-- Witness for C8 (amended): the example `/a/b/c` with root `/a/b/c/`. -/
theorem findCommonRoot_single_witness :
    findCommonRoot ["/a/b/c"] = GoResult.ok ["/a/b/c/"] ∧
    (∀ s ∈ segments "/a/b/c", CleanSegment s) ∧
    findCommonRoot ["/a/b/c"] =
      GoResult.ok [String.mk ('/' :: stringsTrim "/a/b/c".data '/' ++ ['/'])] :=
  ⟨by decide, by decide, (findCommonRoot_single "/a/b/c").2 (Or.inr (by decide))⟩

/-! ## `MapEvents`: order of the forwarded events -/

theorem mapBatch_eq (F : EventFlagConsts) (O : OpConsts) (events : List RawEvent) :
    ∀ sent : List Event, mapBatch F O events sent = sent ++ events.filterMap (acceptEvent F O) := by
  induction events with
  | nil => intro sent; simp [mapBatch]
  | cons event events ih =>
    intro sent
    rw [mapBatch]
    cases hne : newEvent F O event.Path event.Flags with
    | mk evt ok =>
      cases ok
      · simp only [ih]
        rw [List.filterMap_cons]
        simp [acceptEvent, hne]
      · simp only [ih]
        rw [List.filterMap_cons]
        simp [acceptEvent, hne]

/-- C14: for every sequence of raw event batches, the events `MapEvents` sends to the output
channel are, after what was sent before, exactly the events `newEvent` accepts, in the
order of the batches and of the events within each batch; each raw event yields zero or
one normalized event. -/
theorem mapEvents_in_order (F : EventFlagConsts) (O : OpConsts) (batches : List (List RawEvent))
    (sent : List Event) :
    MapEvents F O batches sent = sent ++ batches.flatten.filterMap (acceptEvent F O) ∧
    MapEvents F O batches [] = (batches.map (List.filterMap (acceptEvent F O))).flatten ∧
    (MapEvents F O batches []).length ≤ batches.flatten.length := by
  have h : ∀ sent : List Event,
      MapEvents F O batches sent = sent ++ batches.flatten.filterMap (acceptEvent F O) := by
    induction batches with
    | nil => intro sent; simp [MapEvents]
    | cons events batches ih =>
      intro sent
      rw [MapEvents, ih, mapBatch_eq, List.flatten_cons, List.filterMap_append,
        List.append_assoc]
  refine ⟨h sent, ?_, ?_⟩
  · rw [h, List.nil_append]
    clear h
    induction batches with
    | nil => rfl
    | cons events batches ih =>
      rw [List.flatten_cons, List.filterMap_append, List.map_cons, List.flatten_cons, ih]
  · rw [h, List.nil_append]
    exact List.length_filterMap_le _ _

/-! ## `findCommonRoot` never panics -/

theorem findCommonRoot_ne_panic (names : List String) :
    findCommonRoot names ≠ GoResult.panic := by
  cases names with
  | nil => simp [findCommonRoot]
  | cons first rest =>
    obtain ⟨P, -, -, -, hres⟩ := findCommonRoot_cons first rest
    rw [hres]
    split_ifs <;> simp

/-- C17: `findCommonRoot` is total and panic-free: on every input it returns either a list
of roots or the "no common root" error; while the loop runs over any initial part of
`names`, `rootLength` is defined (no index is out of range) and never exceeds
`len(rootSplit)`, and the final slice `rootSplit[:rootLength]` is in bounds. -/
theorem findCommonRoot_total (names : List String) :
    findCommonRoot names ≠ GoResult.panic ∧
    ((∃ roots, findCommonRoot names = GoResult.ok roots) ∨
      findCommonRoot names = GoResult.err noCommonRoot) ∧
    (∀ (first : String) (done todo : List String), names.head? = some first →
      names = done ++ todo →
      ∃ rootLength, rootLengthLoop (segments first) done (segments first).length =
          some rootLength ∧ rootLength ≤ (segments first).length ∧
        sliceTo (segments first) rootLength = some ((segments first).take rootLength)) := by
  refine ⟨findCommonRoot_ne_panic names, ?_, ?_⟩
  · cases names with
    | nil => exact Or.inl ⟨[], rfl⟩
    | cons first rest =>
      obtain ⟨P, -, -, -, hres⟩ := findCommonRoot_cons first rest
      rw [hres]
      split_ifs
      · exact Or.inr rfl
      · exact Or.inl ⟨_, rfl⟩
  · intro first done todo _ _
    obtain ⟨n, hn, hle, -, -⟩ :=
      rootLengthLoop_spec (segments first) done (segments first).length (le_refl _)
    exact ⟨n, hn, hle, by simp [sliceTo, hle]⟩

/-! ## `findCommonRoot` and leading or trailing separators -/

theorem trimLeftByte_concat (A : List Char) (x c : Char) :
    trimLeftByte (A ++ [x]) c =
      if trimLeftByte A c = [] then (if x = c then [] else [x]) else trimLeftByte A c ++ [x] := by
  induction A with
  | nil =>
    by_cases hx : x = c <;> simp [trimLeftByte, hx]
  | cons a A ih =>
    by_cases ha : a = c
    · rw [List.cons_append, trimLeftByte, if_pos ha, ih, trimLeftByte, if_pos ha]
    · rw [List.cons_append, trimLeftByte, if_neg ha, trimLeftByte, if_neg ha]
      simp

theorem trimRightByte_cons (x : Char) (l : List Char) (c : Char) :
    trimRightByte (x :: l) c =
      if trimRightByte l c = [] then (if x = c then [] else [x]) else x :: trimRightByte l c := by
  rw [trimRightByte, List.reverse_cons, trimLeftByte_concat, trimRightByte]
  by_cases h : trimLeftByte l.reverse c = []
  · rw [if_pos h, h]
    by_cases hx : x = c <;> simp [hx]
  · have h2 : ¬ (trimLeftByte l.reverse c).reverse = [] := by simpa using h
    rw [if_neg h, if_neg h2]
    simp

theorem stringsTrim_cons_sep (l : List Char) (c : Char) :
    stringsTrim (c :: l) c = stringsTrim l c := by
  rw [stringsTrim, stringsTrim, trimRightByte_cons]
  by_cases h : trimRightByte l c = []
  · rw [if_pos h, if_pos rfl, h]
  · rw [if_neg h, trimLeftByte, if_pos rfl]

theorem stringsTrim_concat_sep (l : List Char) (c : Char) :
    stringsTrim (l ++ [c]) c = stringsTrim l c := by
  rw [stringsTrim, stringsTrim, trimRightByte_concat_sep]

theorem stringsTrim_replicate (k m : Nat) (l : List Char) (c : Char) :
    stringsTrim (List.replicate k c ++ l ++ List.replicate m c) c = stringsTrim l c := by
  induction m with
  | zero =>
    rw [List.replicate_zero, List.append_nil]
    induction k with
    | zero => rfl
    | succ k ih => rw [List.replicate_succ, List.cons_append, stringsTrim_cons_sep, ih]
  | succ m ih =>
    rw [List.replicate_succ', ← List.append_assoc, stringsTrim_concat_sep, ih]

theorem segments_withSeparators (k m : Nat) (p : String) :
    segments (withSeparators k m p) = segments p := by
  rw [segments, segments, withSeparators]
  simp only
  rw [stringsTrim_replicate]

theorem rootLengthLoop_congr (rootSplit : List (List Char)) :
    ∀ (l1 l2 : List String) (rootLength : Nat), l1.map segments = l2.map segments →
      rootLengthLoop rootSplit l1 rootLength = rootLengthLoop rootSplit l2 rootLength := by
  intro l1
  induction l1 with
  | nil =>
    intro l2 rl h
    cases l2 with
    | nil => rfl
    | cons b bs => simp at h
  | cons a as ih =>
    intro l2 rl h
    cases l2 with
    | nil => simp at h
    | cons b bs =>
      simp only [List.map_cons, List.cons.injEq] at h
      rw [rootLengthLoop, rootLengthLoop, h.1]
      cases commonLengthLoop rootSplit (segments b) rl 0 0 with
      | none => rfl
      | some n => exact ih bs n h.2

theorem findCommonRoot_congr (l1 l2 : List String) (h : l1.map segments = l2.map segments) :
    findCommonRoot l1 = findCommonRoot l2 := by
  cases l1 with
  | nil =>
    cases l2 with
    | nil => rfl
    | cons b bs => simp at h
  | cons a as =>
    cases l2 with
    | nil => simp at h
    | cons b bs =>
      have hab : segments a = segments b := by
        simp only [List.map_cons, List.cons.injEq] at h
        exact h.1
      simp only [findCommonRoot]
      rw [rootLengthLoop_congr (segments a) (a :: as) (b :: bs) _ h, hab]

/-- C19: `findCommonRoot` is insensitive to leading and trailing separators: a path list and
the list obtained from it by adding, to each path, any number of leading and any number
of trailing `/` characters have the same result (root or error); read from right to left
this is the removal of such characters. -/
theorem findCommonRoot_separators (l : List (Nat × Nat × String)) :
    findCommonRoot (l.map (fun t => withSeparators t.1 t.2.1 t.2.2)) =
      findCommonRoot (l.map (fun t => t.2.2)) := by
  apply findCommonRoot_congr
  rw [List.map_map, List.map_map]
  apply List.map_congr_left
  intro t _
  exact segments_withSeparators _ _ _

/-! ## `findCommonRoot` when a path is added -/

/-- C18 fails as stated: the single path `/a/b/..` has the common segments `a`, `b`, `..`,
which `filepath.Join` cleans to the root `/a/`; adding `/a/b/c` leaves the common segments
`a`, `b` and the root `/a/b/`, which is longer than, and not a segment-wise prefix of,
the root before. -/
theorem findCommonRoot_append_root_longer :
    findCommonRoot (["/a/b/.."] ++ ["/a/b/c"]) = GoResult.ok ["/a/b/"] ∧
    findCommonRoot ["/a/b/.."] = GoResult.ok ["/a/"] ∧
    segments "/a/b/" = ["a".data, "b".data] ∧
    segments "/a/" = ["a".data] ∧
    ¬ (segments "/a/b/" <+: segments "/a/") := by
  decide

/-- C18 (amended): if `findCommonRoot(names ++ [p])` succeeds then `findCommonRoot(names)`
succeeds too; for non-empty `names` the longest common segment sequence `P1` of
`names ++ [p]` is a prefix of the longest common segment sequence `P` of `names` (the
number of common segments does not grow), the roots are `/` + `filepath.Join` of these
segments + `/`, and when no segment of `P` is empty, `.` or `..` the root for
`names ++ [p]` is a segment-wise prefix of the root for `names`. -/
theorem findCommonRoot_append_shrinks (names : List String) (p : String)
    (roots1 : List String) (hok : findCommonRoot (names ++ [p]) = GoResult.ok roots1) :
    ∃ roots, findCommonRoot names = GoResult.ok roots ∧
      (names ≠ [] → ∃ P P1 : List (List Char),
        IsCommonPrefix P names ∧
        (∀ Q : List (List Char), IsCommonPrefix Q names → Q.length ≤ P.length) ∧
        IsCommonPrefix P1 (names ++ [p]) ∧
        (∀ Q : List (List Char), IsCommonPrefix Q (names ++ [p]) → Q.length ≤ P1.length) ∧
        P1 <+: P ∧ 0 < P1.length ∧
        roots = [String.mk ('/' :: filepathJoin P ++ ['/'])] ∧
        roots1 = [String.mk ('/' :: filepathJoin P1 ++ ['/'])] ∧
        ((∀ s ∈ P, CleanSegment s) →
          ∃ root root1, roots = [root] ∧ roots1 = [root1] ∧
            segments root1 <+: segments root)) := by
  cases names with
  | nil => exact ⟨[], rfl, fun h => absurd rfl h⟩
  | cons first rest =>
    obtain ⟨P, hPf, hP, hmax, hres⟩ := findCommonRoot_cons first rest
    obtain ⟨P1, hP1f, hP1, hmax1, hres1⟩ := findCommonRoot_cons first (rest ++ [p])
    rw [List.cons_append, hres1] at hok
    have hP1names : IsCommonPrefix P1 (first :: rest) := by
      intro q hq
      apply hP1 q
      rcases List.mem_cons.mp hq with h | h
      · rw [h]; exact List.mem_cons_self _ _
      · exact List.mem_cons_of_mem _ (List.mem_append_left _ h)
    have hle : P1.length ≤ P.length := hmax P1 hP1names
    have hpre : P1 <+: P := List.prefix_of_prefix_length_le hP1f hPf hle
    by_cases h0 : P1.length = 0
    · rw [if_pos h0] at hok
      cases hok
    · rw [if_neg h0] at hok
      have hroots1 := (GoResult.ok.inj hok).symm
      have hP0 : ¬ P.length = 0 := by omega
      rw [hres, if_neg hP0]
      refine ⟨_, rfl, fun _ => ⟨P, P1, hP, hmax, ?_, ?_, hpre, by omega, rfl, hroots1, ?_⟩⟩
      · rw [List.cons_append]; exact hP1
      · rw [List.cons_append]; exact hmax1
      · intro hc
        have hPne : P ≠ [] := fun e => hP0 (by rw [e]; rfl)
        have hP1ne : P1 ≠ [] := fun e => h0 (by rw [e]; rfl)
        have hPc : ∀ t ∈ P, CleanSegment t ∧ '/' ∉ t := fun t ht =>
          ⟨hc t ht, segments_not_mem first t (hPf.subset ht)⟩
        have hP1c : ∀ t ∈ P1, CleanSegment t ∧ '/' ∉ t := fun t ht => hPc t (hpre.subset ht)
        refine ⟨_, _, rfl, hroots1, ?_⟩
        rw [(root_of_clean_segments P hPne hPc).2, (root_of_clean_segments P1 hP1ne hP1c).2]
        exact hpre

/-- Witness for C18 (amended): adding `/a/x` to `/a/b/c`, `/a/b/d` shortens the root from
`/a/b/` to `/a/`. -/
theorem findCommonRoot_append_shrinks_witness :
    findCommonRoot (["/a/b/c", "/a/b/d"] ++ ["/a/x"]) = GoResult.ok ["/a/"] ∧
    findCommonRoot ["/a/b/c", "/a/b/d"] = GoResult.ok ["/a/b/"] ∧
    segments "/a/" <+: segments "/a/b/" ∧
    ∃ roots, findCommonRoot ["/a/b/c", "/a/b/d"] = GoResult.ok roots :=
  have h := findCommonRoot_append_shrinks ["/a/b/c", "/a/b/d"] "/a/x" ["/a/"] (by decide)
  ⟨by decide, by decide, by decide, h.elim (fun roots hr => ⟨roots, hr.1⟩)⟩

/-- Witness for C17: the loop over the first two of three paths. -/
theorem findCommonRoot_total_witness :
    findCommonRoot ["/a/b/c", "/a/b/d", "/a/x"] ≠ GoResult.panic ∧
    ∃ rootLength, rootLengthLoop (segments "/a/b/c") ["/a/b/c", "/a/b/d"]
        (segments "/a/b/c").length = some rootLength ∧
      rootLength ≤ (segments "/a/b/c").length ∧
      sliceTo (segments "/a/b/c") rootLength = some ((segments "/a/b/c").take rootLength) :=
  have h := findCommonRoot_total ["/a/b/c", "/a/b/d", "/a/x"]
  ⟨h.1, h.2.2 "/a/b/c" ["/a/b/c", "/a/b/d"] ["/a/x"] rfl rfl⟩

/-! ## The watcher life cycle -/

theorem watcherInv_NewWatcher (FileEvents : Nat) : WatcherInv FileEvents (NewWatcher FileEvents) := by
  refine ⟨rfl, ?_, by simp [NewWatcher], by simp [NewWatcher], ?_, ?_, rfl⟩
  · intro r hr; cases hr
  · intro r hr; cases hr
  · intro c hc; cases hc

theorem updateAll_ok (s : WatcherState) (names roots : List String)
    (h : findCommonRoot names = GoResult.ok roots) :
    UpdateAll s names =
      (startStep (spawnStep (assignStep (stopStep s) roots)), GoResult.ok ()) := by
  simp only [UpdateAll, h]

theorem updateAll_err (s : WatcherState) (names : List String) (msg : String)
    (h : findCommonRoot names = GoResult.err msg) :
    UpdateAll s names = (stopStep s, GoResult.err msg) := by
  simp only [UpdateAll, h]

theorem watcherInv_UpdateAll (FileEvents : Nat) (s : WatcherState) (names : List String)
    (hs : WatcherInv FileEvents s) : WatcherInv FileEvents (UpdateAll s names).1 := by
  obtain ⟨hF, hrel, hE, hv, hrelE, hloops, hcl⟩ := hs
  cases h : findCommonRoot names with
  | panic => exact absurd h (findCommonRoot_ne_panic names)
  | err msg =>
    rw [updateAll_err s names msg h]
    exact ⟨hF, hrel, hE, hv, hrelE, hloops, hcl⟩
  | ok roots =>
    rw [updateAll_ok s names roots h]
    refine ⟨hF, ?_, ?_, ?_, ?_, ?_, hcl⟩
    · intro r hr
      simp only [startStep, spawnStep, assignStep, stopStep, List.mem_append,
        List.mem_singleton] at hr
      rcases hr with hr | hr
      · exact hrel r hr
      · rw [hr]; rfl
    · simp [startStep, spawnStep, assignStep, stopStep, EventStream.Start]
    · simp only [startStep, spawnStep, assignStep, stopStep]
      omega
    · intro r hr
      simp only [startStep, spawnStep, assignStep, stopStep, List.mem_append,
        List.mem_singleton] at hr ⊢
      rcases hr with hr | hr
      · have := hrelE r hr
        omega
      · rw [hr]
        simp only [EventStream.Stop]
        omega
    · intro c hc
      simp only [startStep, spawnStep, assignStep, stopStep, List.mem_append,
        List.mem_singleton] at hc ⊢
      rcases hc with hc | hc
      · have := hloops c hc
        omega
      · omega

theorem watcherInv_runUpdates (FileEvents : Nat) (updates : List (List String)) :
    ∀ s : WatcherState, WatcherInv FileEvents s → WatcherInv FileEvents (runUpdates s updates) := by
  induction updates with
  | nil => intro s hs; exact hs
  | cons names updates ih =>
    intro s hs
    exact ih _ (watcherInv_UpdateAll FileEvents s names hs)

theorem watcherInv_reachable (FileEvents : Nat) (updates : List (List String)) :
    WatcherInv FileEvents (runUpdates (NewWatcher FileEvents) updates) :=
  watcherInv_runUpdates FileEvents updates _ (watcherInv_NewWatcher FileEvents)

theorem runUpdates_append (s : WatcherState) (updates : List (List String))
    (names : List String) :
    runUpdates s (updates ++ [names]) = (UpdateAll (runUpdates s updates) names).1 := by
  simp [runUpdates, List.foldl_append]

theorem activeCount_of_released (s : WatcherState)
    (hrel : ∀ r ∈ s.released, r.running = false) :
    activeCount s = if s.w.es.running then 1 else 0 := by
  have h0 : s.released.countP (fun es => es.running) = 0 := by
    rw [List.countP_eq_zero]
    intro r hr
    simp [hrel r hr]
  rw [activeCount, List.countP_cons, h0]
  simp

/-- C11: in every watcher state reachable from `NewWatcher` by `UpdateAll` calls, for every
path list on which `findCommonRoot` succeeds, `UpdateAll(names)` returns nil and leaves
`w.es` a started stream on a channel made by this call (different from every channel in
use before), whose `Paths` equal the result of `findCommonRoot(names)` and whose `Flags`
equal the file-events mask given to `NewWatcher`; the stream held before is released,
stopped, and the mask is the same after every sequence of updates. -/
theorem updateAll_success (FileEvents : Nat) (updates : List (List String))
    (names roots : List String) (h : findCommonRoot names = GoResult.ok roots) :
    (UpdateAll (runUpdates (NewWatcher FileEvents) updates) names).2 = GoResult.ok () ∧
    (UpdateAll (runUpdates (NewWatcher FileEvents) updates) names).1.w.es =
      { Events := (runUpdates (NewWatcher FileEvents) updates).chans, Paths := roots,
        Flags := FileEvents, running := true } ∧
    ((runUpdates (NewWatcher FileEvents) updates).w.es.Events ≠
        (runUpdates (NewWatcher FileEvents) updates).chans ∧
      (runUpdates (NewWatcher FileEvents) updates).w.evs ≠
        (runUpdates (NewWatcher FileEvents) updates).chans ∧
      (∀ r ∈ (runUpdates (NewWatcher FileEvents) updates).released,
        r.Events ≠ (runUpdates (NewWatcher FileEvents) updates).chans) ∧
      (∀ c ∈ (runUpdates (NewWatcher FileEvents) updates).loops,
        c ≠ (runUpdates (NewWatcher FileEvents) updates).chans)) ∧
    (UpdateAll (runUpdates (NewWatcher FileEvents) updates) names).1.released =
      (runUpdates (NewWatcher FileEvents) updates).released ++
        [(runUpdates (NewWatcher FileEvents) updates).w.es.Stop] ∧
    (runUpdates (NewWatcher FileEvents) updates).w.es.Flags = FileEvents ∧
    (runUpdates (NewWatcher FileEvents) (updates ++ [names])).w.es.Flags = FileEvents := by
  obtain ⟨hF, hrel, hE, hv, hrelE, hloops, hcl⟩ := watcherInv_reachable FileEvents updates
  have hF2 := (watcherInv_reachable FileEvents (updates ++ [names])).1
  rw [updateAll_ok _ names roots h]
  refine ⟨rfl, ?_, ⟨by omega, by omega, ?_, ?_⟩, rfl, hF, hF2⟩
  · simp only [startStep, spawnStep, assignStep, stopStep, EventStream.Start, EventStream.Stop]
    rw [hF]
  · intro r hr
    have := hrelE r hr
    omega
  · intro c hc
    have := hloops c hc
    omega

/-- Witness for C11: the first update of a new watcher with `FileEvents = 0x10`. -/
theorem updateAll_success_witness :
    findCommonRoot ["/a/b/c", "/a/b/d"] = GoResult.ok ["/a/b/"] ∧
    (UpdateAll (runUpdates (NewWatcher 0x10) []) ["/a/b/c", "/a/b/d"]).2 = GoResult.ok () ∧
    (UpdateAll (runUpdates (NewWatcher 0x10) []) ["/a/b/c", "/a/b/d"]).1.w.es =
      { Events := 2, Paths := ["/a/b/"], Flags := 0x10, running := true } :=
  have h := updateAll_success 0x10 [] ["/a/b/c", "/a/b/d"] ["/a/b/"] (by decide)
  ⟨by decide, h.1, h.2.1⟩

/-- C12: for every watcher state and every path list on which `findCommonRoot` fails,
`UpdateAll` returns that error; the stream `w.es` is the one held before, stopped, with
the same channel, paths and flags; no stream is created, no goroutine is spawned, no
channel is made or closed and the output channel is unchanged; in a state reachable from
`NewWatcher` no native subscription at all is active afterwards. -/
theorem updateAll_failure (s : WatcherState) (names : List String) (msg : String)
    (h : findCommonRoot names = GoResult.err msg) :
    (UpdateAll s names).2 = GoResult.err msg ∧
    (UpdateAll s names).1.w.es.running = false ∧
    (UpdateAll s names).1.w.es.Events = s.w.es.Events ∧
    (UpdateAll s names).1.w.es.Paths = s.w.es.Paths ∧
    (UpdateAll s names).1.w.es.Flags = s.w.es.Flags ∧
    (UpdateAll s names).1.w.evs = s.w.evs ∧
    (UpdateAll s names).1.released = s.released ∧
    (UpdateAll s names).1.loops = s.loops ∧
    (UpdateAll s names).1.closed = s.closed ∧
    (UpdateAll s names).1.chans = s.chans ∧
    (∀ (FileEvents : Nat) (updates : List (List String)),
      s = runUpdates (NewWatcher FileEvents) updates →
      activeCount (UpdateAll s names).1 = 0) := by
  rw [updateAll_err s names msg h]
  refine ⟨rfl, rfl, rfl, rfl, rfl, rfl, rfl, rfl, rfl, rfl, ?_⟩
  intro FileEvents updates hs
  have hrel := (watcherInv_reachable FileEvents updates).2.1
  rw [← hs] at hrel
  rw [activeCount_of_released (stopStep s) hrel]
  rfl

/-- Witness for C12: a failing update after a successful one. -/
theorem updateAll_failure_witness :
    findCommonRoot ["/a/b", "/c/d"] = GoResult.err noCommonRoot ∧
    (UpdateAll (runUpdates (NewWatcher 0x10) [["/a/b"]]) ["/a/b", "/c/d"]).2 =
      GoResult.err noCommonRoot ∧
    (UpdateAll (runUpdates (NewWatcher 0x10) [["/a/b"]]) ["/a/b", "/c/d"]).1.w.es =
      { Events := 2, Paths := ["/a/b/"], Flags := 0x10, running := false } ∧
    activeCount (UpdateAll (runUpdates (NewWatcher 0x10) [["/a/b"]]) ["/a/b", "/c/d"]).1 = 0 :=
  have h := updateAll_failure (runUpdates (NewWatcher 0x10) [["/a/b"]]) ["/a/b", "/c/d"]
    noCommonRoot (by decide)
  ⟨by decide, h.1, by decide, h.2.2.2.2.2.2.2.2.2.2 0x10 [["/a/b"]] rfl⟩

/-- C13: in every state reachable from `NewWatcher` by a sequence of `UpdateAll` calls
(successful or failing) at most one native subscription is active, also in each
intermediate state of a further `UpdateAll` call: its first statement stops the held
subscription, so none is active when the new stream is started, and a released stream is
never running. -/
theorem at_most_one_active (FileEvents : Nat) (updates : List (List String)) :
    activeCount (runUpdates (NewWatcher FileEvents) updates) ≤ 1 ∧
    (∀ r ∈ (runUpdates (NewWatcher FileEvents) updates).released, r.running = false) ∧
    (∀ names : List String,
      (∀ t ∈ updateAllTrace (runUpdates (NewWatcher FileEvents) updates) names,
        activeCount t ≤ 1) ∧
      activeCount (stopStep (runUpdates (NewWatcher FileEvents) updates)) = 0 ∧
      (updateAllTrace (runUpdates (NewWatcher FileEvents) updates) names).head? =
        some (stopStep (runUpdates (NewWatcher FileEvents) updates)) ∧
      (updateAllTrace (runUpdates (NewWatcher FileEvents) updates) names).getLast? =
        some (UpdateAll (runUpdates (NewWatcher FileEvents) updates) names).1) := by
  have hrel := (watcherInv_reachable FileEvents updates).2.1
  generalize runUpdates (NewWatcher FileEvents) updates = s at hrel
  have hstop : activeCount (stopStep s) = 0 := by
    rw [activeCount_of_released (stopStep s) hrel]
    rfl
  refine ⟨?_, hrel, ?_⟩
  · rw [activeCount_of_released s hrel]
    split_ifs <;> omega
  · intro names
    have hrel2 : ∀ roots : List String,
        ∀ r ∈ (assignStep (stopStep s) roots).released, r.running = false := by
      intro roots r hr
      simp only [assignStep, stopStep, List.mem_append, List.mem_singleton] at hr
      rcases hr with hr | hr
      · exact hrel r hr
      · rw [hr]; rfl
    cases h : findCommonRoot names with
    | panic => exact absurd h (findCommonRoot_ne_panic names)
    | err msg =>
      simp only [updateAllTrace, UpdateAll, h]
      refine ⟨?_, hstop, rfl, rfl⟩
      intro t ht
      rw [List.mem_singleton.mp ht, hstop]
      omega
    | ok roots =>
      simp only [updateAllTrace, UpdateAll, h]
      refine ⟨?_, hstop, rfl, rfl⟩
      intro t ht
      simp only [List.mem_cons, List.mem_singleton, List.not_mem_nil, or_false] at ht
      rcases ht with ht | ht | ht | ht
      · rw [ht, hstop]; omega
      · rw [ht, activeCount_of_released _ (hrel2 roots)]
        simp [assignStep]
      · rw [ht, activeCount_of_released (spawnStep (assignStep (stopStep s) roots))
          (hrel2 roots)]
        simp [assignStep, spawnStep]
      · rw [ht, activeCount_of_released (startStep (spawnStep (assignStep (stopStep s) roots)))
          (hrel2 roots)]
        simp [assignStep, spawnStep, startStep, EventStream.Start]

/-- C16: the output channel returned by `Events()` is the channel made by `NewWatcher`
after every sequence of `UpdateAll` calls, and no `UpdateAll` call, successful or failing,
changes it. -/
theorem events_stable (FileEvents : Nat) (updates : List (List String)) :
    (runUpdates (NewWatcher FileEvents) updates).w.Events = (NewWatcher FileEvents).w.Events ∧
    (∀ (s : WatcherState) (names : List String),
      (UpdateAll s names).1.w.Events = s.w.Events) := by
  have hstep : ∀ (s : WatcherState) (names : List String),
      (UpdateAll s names).1.w.Events = s.w.Events := by
    intro s names
    cases h : findCommonRoot names <;> simp only [UpdateAll, h] <;> rfl
  refine ⟨?_, hstep⟩
  have hrun : ∀ (us : List (List String)) (s : WatcherState),
      (runUpdates s us).w.Events = s.w.Events := by
    intro us
    induction us with
    | nil => intro s; rfl
    | cons names us ih =>
      intro s
      exact (ih _).trans (hstep s names)
  exact hrun updates _

theorem events_ne_evs_reachable (FileEvents : Nat) (updates : List (List String)) :
    (runUpdates (NewWatcher FileEvents) updates).w.es.Events ≠
      (runUpdates (NewWatcher FileEvents) updates).w.evs := by
  have hv : ∀ (us : List (List String)) (s : WatcherState),
      (runUpdates s us).w.evs = s.w.evs := by
    intro us
    induction us with
    | nil => intro s; rfl
    | cons names us ih =>
      intro s
      refine (ih _).trans ?_
      cases h : findCommonRoot names <;> simp only [UpdateAll, h] <;> rfl
  have hE : ∀ (us : List (List String)) (s : WatcherState), WatcherInv FileEvents s →
      s.w.es.Events ≠ s.w.evs → (runUpdates s us).w.es.Events ≠ s.w.evs := by
    intro us
    induction us with
    | nil => intro s _ h; exact h
    | cons names us ih =>
      intro s hs hne
      have hi := watcherInv_UpdateAll FileEvents s names hs
      have hevs : (UpdateAll s names).1.w.evs = s.w.evs := by
        cases h : findCommonRoot names <;> simp only [UpdateAll, h] <;> rfl
      have hne2 : (UpdateAll s names).1.w.es.Events ≠ (UpdateAll s names).1.w.evs := by
        rw [hevs]
        cases h : findCommonRoot names with
        | panic => exact absurd h (findCommonRoot_ne_panic names)
        | err msg => rw [updateAll_err s names msg h]; exact hne
        | ok roots =>
          rw [updateAll_ok s names roots h]
          have := hs.2.2.2.1
          simp only [startStep, spawnStep, assignStep, stopStep, EventStream.Start]
          omega
      have := ih _ hi hne2
      rw [hevs] at this
      exact this
  rw [hv]
  exact hE updates _ (watcherInv_NewWatcher FileEvents) (by simp [NewWatcher])

/-- On a watcher reachable from `NewWatcher` by `UpdateAll` calls, `Close` returns nil, stops
the held stream and closes exactly two channels: `w.es.Events`, then `w.evs`. -/
theorem close_reachable (FileEvents : Nat) (updates : List (List String)) :
    (Close (runUpdates (NewWatcher FileEvents) updates)).2 = GoResult.ok () ∧
    (Close (runUpdates (NewWatcher FileEvents) updates)).1.closed =
      [(runUpdates (NewWatcher FileEvents) updates).w.es.Events,
        (runUpdates (NewWatcher FileEvents) updates).w.evs] ∧
    activeCount (Close (runUpdates (NewWatcher FileEvents) updates)).1 = 0 := by
  obtain ⟨-, hrel, hE, hv, -, -, hcl⟩ := watcherInv_reachable FileEvents updates
  have hne := (events_ne_evs_reachable FileEvents updates)
  generalize runUpdates (NewWatcher FileEvents) updates = s at hrel hE hv hcl hne
  have h1 : closeChan s.closed s.w.es.Stop.Events = some [s.w.es.Events] := by
    simp [closeChan, hcl, EventStream.Stop]
  have h2 : closeChan [s.w.es.Events] s.w.evs = some [s.w.es.Events, s.w.evs] := by
    have : ¬ s.w.evs = s.w.es.Events := fun e => hne e.symm
    simp [closeChan, this]
  have hclose : Close s =
      ({ stopStep s with closed := [s.w.es.Events, s.w.evs] }, GoResult.ok ()) := by
    simp only [Close, stopStep, h1, h2]
  rw [hclose]
  refine ⟨rfl, rfl, ?_⟩
  have h0 := activeCount_of_released (stopStep s) hrel
  simp only [activeCount, stopStep, EventStream.Stop] at h0 ⊢
  rw [h0]
  rfl

/-- C15 on the failing input `NewWatcher(); UpdateAll(["/a"]); UpdateAll(["/b"]); Close()`:
`Close` returns nil and closes channel 3 (the `Events` of the second stream) and channel 1
(the output channel), but the `MapEvents` goroutine spawned by the first `UpdateAll` ranges
over channel 2, which is never closed. -/
theorem close_leaves_first_loop_open :
    (Close (runUpdates (NewWatcher 0x10) [["/a"], ["/b"]])).2 = GoResult.ok () ∧
    (Close (runUpdates (NewWatcher 0x10) [["/a"], ["/b"]])).1.loops = [2, 3] ∧
    (Close (runUpdates (NewWatcher 0x10) [["/a"], ["/b"]])).1.closed = [3, 1] ∧
    ¬ (∀ c ∈ (Close (runUpdates (NewWatcher 0x10) [["/a"], ["/b"]])).1.loops,
        c ∈ (Close (runUpdates (NewWatcher 0x10) [["/a"], ["/b"]])).1.closed) := by
  decide

end FSEvents
